import Mathlib

/-!
Shallow embedding of the trigger-filter and block-ingestion core of the
repository (graph/src/components/ethereum/adapter.rs), together with proofs
about its filter algebra, its log-filter planner, and the collation phase of
`blocks_with_triggers`.

Modelling conventions:
* `Address`, `H256` (hashes / event signatures) are `Nat`.
* A `[u8; 4]` function selector is a `List Nat` of the four bytes.
* Rust `HashSet` values are duplicate-free `List`s with insert-if-absent;
  `HashMap`s are association lists with unique keys (hypothesised where a
  theorem needs it).  Iteration order of hash containers is abstracted as
  first-insertion order; every property proved below is insensitive to it
  unless a completion-order parameter makes the nondeterminism explicit.
* Panics (`unwrap`, out-of-bounds slicing) are modelled by `Option`: a panic
  or a failed upstream lookup yields `none`.
-/

abbrev Address := Nat
abbrev H256 := Nat
abbrev EventSignature := H256
abbrev FunctionSelector := List Nat

/-- Modelled from the spec: the `web3` `Log` type is external to the repository;
§3 and §4.A use its `address`, `topics` and block-position fields. -/
structure Log where
  address : Address
  topics : List H256
  block_number : Nat
  block_hash : H256
deriving DecidableEq, Repr

/-- Modelled from the spec: `EthereumCall` lives in `components/ethereum/types.rs`
(not under src/); §4.A uses `to` and the input byte vector, §4.F its
block-position fields. -/
structure EthereumCall where
  /-- The source field is named `to`, a Lean keyword. -/
  to_addr : Address
  input : List Nat
  block_number : Nat
  block_hash : H256
deriving DecidableEq, Repr

/-- Modelled from the spec: `BlockPointer` is the pair `(number, hash)` (§3). -/
structure EthereumBlockPointer where
  number : Nat
  hash : H256
deriving DecidableEq, Repr

/-- Modelled from the spec: a lightweight block; only `number` and `hash` are
consumed by the collation phase of `blocks_with_triggers`. -/
structure LightEthereumBlock where
  number : Nat
  hash : H256
deriving DecidableEq, Repr

/-- Mirrors `EthereumAdapterError` (adapter.rs lines 70-83): the only variants
are `BlockUnavailable` and `Unknown`; no `InvalidRange` variant exists. -/
inductive EthereumAdapterError where
  | BlockUnavailable (hash : H256)
  | Unknown
deriving DecidableEq, Repr

/-- Mirrors the node type of the bipartite contract/event graph (adapter.rs
lines 91-95). -/
inductive LogFilterNode where
  | Contract (a : Address)
  | Event (s : EventSignature)
deriving DecidableEq, Repr

/-- Mirrors `EthGetLogsFilter` (adapter.rs lines 97-102). -/
structure EthGetLogsFilter where
  contracts : List Address
  event_signatures : List EventSignature
deriving DecidableEq, Repr

/-- Insert-if-absent, modelling `HashSet::insert` under first-insertion order. -/
def insertNew {α : Type} [DecidableEq α] (l : List α) (x : α) : List α :=
  if x ∈ l then l else l ++ [x]

/-- Mirrors `petgraph::graphmap::GraphMap<LogFilterNode, (), Undirected>` as a
node list plus an undirected edge list (each edge stored once, in the
orientation it was first added with). -/
structure GraphMap where
  nodes : List LogFilterNode
  edges : List (LogFilterNode × LogFilterNode)
deriving DecidableEq, Repr

namespace GraphMap

/-- Containment of an undirected edge, in either stored orientation. -/
def hasEdge (g : GraphMap) (a b : LogFilterNode) : Bool :=
  g.edges.any fun e => (e.1 = a ∧ e.2 = b) ∨ (e.1 = b ∧ e.2 = a)

def add_edge (g : GraphMap) (a b : LogFilterNode) : GraphMap :=
  { nodes := insertNew (insertNew g.nodes a) b
    edges := if g.hasEdge a b then g.edges else g.edges ++ [(a, b)] }

/-- Mirrors `g.neighbors(v)`: the opposite endpoint of every edge incident to
`v`, in edge-storage order. -/
def neighborsOf (g : GraphMap) (v : LogFilterNode) : List LogFilterNode :=
  g.edges.filterMap fun e =>
    if e.1 = v then some e.2 else if e.2 = v then some e.1 else none

def degree (g : GraphMap) (v : LogFilterNode) : Nat :=
  (g.neighborsOf v).length

def edge_count (g : GraphMap) : Nat :=
  g.edges.length

def remove_node (g : GraphMap) (v : LogFilterNode) : GraphMap :=
  { nodes := g.nodes.filter fun n => n ≠ v
    edges := g.edges.filter fun e => ¬(e.1 = v ∨ e.2 = v) }

/-- Endpoints of every edge are registered nodes; holds for every graph the
adapter constructs. -/
def WF (g : GraphMap) : Prop :=
  ∀ e ∈ g.edges, e.1 ∈ g.nodes ∧ e.2 ∈ g.nodes

instance (g : GraphMap) : Decidable (g.WF) := by
  unfold WF; infer_instance

end GraphMap

/-- An edge crossing the contract/event partition. -/
def edgeBipartite : LogFilterNode × LogFilterNode → Bool
  | (.Contract _, .Event _) => true
  | (.Event _, .Contract _) => true
  | _ => false

/-- Every edge crosses the partition; §3 states this invariant of the log
filter graph, and both `from_data_sources` and `extend` only add such edges. -/
def GraphMap.Bipartite (g : GraphMap) : Prop :=
  ∀ e ∈ g.edges, edgeBipartite e = true

instance (g : GraphMap) : Decidable (g.Bipartite) := by
  unfold GraphMap.Bipartite; infer_instance

/-- Mirrors `EthereumLogFilter` (adapter.rs lines 126-135). -/
structure EthereumLogFilter where
  contracts_and_events_graph : GraphMap
  wildcard_events : List EventSignature
deriving DecidableEq, Repr

namespace EthereumLogFilter

/-- Mirrors `EthereumLogFilter::matches` (adapter.rs lines 147-166); the source
method is named `matches`, a Lean keyword. -/
def matchesL (f : EthereumLogFilter) (log : Log) : Bool :=
  match log.topics.head? with
  | none => false
  | some sig =>
    (f.contracts_and_events_graph.edges.any fun e =>
        (e.1 = LogFilterNode.Contract log.address ∧ e.2 = LogFilterNode.Event sig) ∨
        (e.2 = LogFilterNode.Contract log.address ∧ e.1 = LogFilterNode.Event sig))
    || f.wildcard_events.contains sig

/-- Mirrors `EthereumLogFilter::extend` (adapter.rs lines 190-200). -/
def extend (f other : EthereumLogFilter) : EthereumLogFilter :=
  { contracts_and_events_graph :=
      other.contracts_and_events_graph.edges.foldl
        (fun g e => g.add_edge e.1 e.2) f.contracts_and_events_graph
    wildcard_events :=
      other.wildcard_events.foldl insertNew f.wildcard_events }

/-- Mirrors `EthereumLogFilter::is_empty` (adapter.rs lines 203-210). -/
def is_empty (f : EthereumLogFilter) : Bool :=
  f.contracts_and_events_graph.edge_count = 0 ∧ f.wildcard_events.isEmpty

end EthereumLogFilter

/-- Mirrors `EthereumCallFilter` (adapter.rs lines 272-277); the `HashMap` is an
association list `address ↦ (start_block, selector set)`. -/
structure EthereumCallFilter where
  contract_addresses_function_signatures : List (Address × (Nat × List FunctionSelector))
deriving DecidableEq, Repr

/-- First-match association-list lookup, modelling `HashMap::get`. -/
def lookupAddr {β : Type} : List (Address × β) → Address → Option β
  | [], _ => none
  | p :: ps, a => if p.1 = a then some p.2 else lookupAddr ps a

/-- Replace the value stored at key `a`, modelling in-place `get_mut` updates. -/
def updateAddr {β : Type} (m : List (Address × β)) (a : Address) (v : β) :
    List (Address × β) :=
  m.map fun p => if p.1 = a then (a, v) else p

/-- Mirrors `HashSet::extend` on selector sets. -/
def selExtend (a b : List FunctionSelector) : List FunctionSelector :=
  b.foldl insertNew a

/-- Keys of the association list are pairwise distinct, as in a `HashMap`. -/
def NoDupKeys {β : Type} (m : List (Address × β)) : Prop :=
  (m.map Prod.fst).Nodup

instance {β : Type} (m : List (Address × β)) : Decidable (NoDupKeys m) := by
  unfold NoDupKeys; infer_instance

namespace EthereumCallFilter

/-- Mirrors `EthereumCallFilter::matches` (adapter.rs lines 280-307).  The
slice `call.input.0[..4]` panics when the input holds fewer than four bytes;
the panic is `none`. -/
def matchesM (f : EthereumCallFilter) (call : EthereumCall) : Option Bool :=
  match lookupAddr f.contract_addresses_function_signatures call.to_addr with
  | none => some false
  | some (_, sigs) =>
    if sigs.isEmpty then some true
    else if call.input.length < 4 then none
    else some (sigs.contains (call.input.take 4))

/-- One iteration of the loop in `EthereumCallFilter::extend`
(adapter.rs lines 328-349). -/
def extendStep (acc : List (Address × (Nat × List FunctionSelector)))
    (p : Address × (Nat × List FunctionSelector)) :
    List (Address × (Nat × List FunctionSelector)) :=
  match lookupAddr acc p.1 with
  | some (esb, esigs) => updateAddr acc p.1 (min p.2.1 esb, selExtend esigs p.2.2)
  | none => acc ++ [p]

/-- Mirrors `EthereumCallFilter::extend` (adapter.rs lines 328-349): fold the
merge step over the entries of `other`. -/
def extend (f other : EthereumCallFilter) : EthereumCallFilter :=
  ⟨other.contract_addresses_function_signatures.foldl extendStep
      f.contract_addresses_function_signatures⟩

/-- Mirrors `EthereumCallFilter::is_empty` (adapter.rs lines 352-358). -/
def is_empty (f : EthereumCallFilter) : Bool :=
  f.contract_addresses_function_signatures.isEmpty

end EthereumCallFilter

/-- Mirrors `BlockHandlerFilter` as used by `EthereumBlockFilter` (its single
variant `Call`; declared with the manifest types outside src/). -/
inductive BlockHandlerFilter where
  | Call
deriving DecidableEq, Repr

/-- Modelled from the spec: a block handler of a data source carries an
optional filter (§3, `block_handlers: list of { filter: optional {Call} }`). -/
structure MappingBlockHandler where
  filter : Option BlockHandlerFilter
deriving DecidableEq, Repr

/-- Modelled from the spec: the `source` section of a data source (§3),
`{ address: optional Address, start_block: u64 }`. -/
structure Source where
  address : Option Address
  start_block : Nat
deriving DecidableEq, Repr

/-- Modelled from the spec: the parts of a data source's mapping the filter
constructors consume (§3): declared event signatures and block handlers. -/
structure Mapping where
  event_handlers : List EventSignature
  block_handlers : List MappingBlockHandler
deriving DecidableEq, Repr

/-- Modelled from the spec: `DataSource` (§3); the manifest type lives outside
src/. -/
structure DataSource where
  source : Source
  mapping : Mapping
deriving DecidableEq, Repr

/-- Mirrors `EthereumBlockFilter` (adapter.rs lines 406-410); the `HashSet` of
`(start_block, address)` pairs is a duplicate-free list. -/
structure EthereumBlockFilter where
  contract_addresses : List (Nat × Address)
  trigger_every_block : Bool
deriving DecidableEq, Repr

namespace EthereumBlockFilter

/-- Mirrors `EthereumBlockFilter::extend` (adapter.rs lines 451-472): the OR of
the flags, and a fold over `self.contract_addresses` only, looking each address
up in `other`. -/
def extend (f other : EthereumBlockFilter) : EthereumBlockFilter :=
  { trigger_every_block := f.trigger_every_block || other.trigger_every_block
    contract_addresses :=
      f.contract_addresses.foldl
        (fun addresses p =>
          match other.contract_addresses.find? (fun q => q.2 = p.2) with
          | some q => insertNew addresses (min q.1 p.1, q.2)
          | none => insertNew addresses (p.1, p.2))
        [] }

/-- Mirrors `EthereumBlockFilter::from_data_sources` (adapter.rs lines 413-449):
keep data sources with an address, fold `extend` over per-source filters. -/
def from_data_sources (dss : List DataSource) : EthereumBlockFilter :=
  (dss.filter fun ds => ds.source.address.isSome).foldl
    (fun filter_opt ds =>
      let has_block_handler_with_call_filter :=
        ds.mapping.block_handlers.any fun bh =>
          match bh.filter with
          | some f => f = BlockHandlerFilter.Call
          | none => false
      let has_block_handler_without_filter :=
        ds.mapping.block_handlers.any fun bh => bh.filter.isNone
      filter_opt.extend
        { trigger_every_block := has_block_handler_without_filter
          contract_addresses :=
            if has_block_handler_with_call_filter then
              [(ds.source.start_block, ds.source.address.getD 0)]
            else [] })
    ⟨[], false⟩

end EthereumBlockFilter

/-- Mirrors `EthereumLogFilter::from_data_sources` (adapter.rs lines 168-187):
for each data source and each declared event signature, add a contract/event
edge when the source has an address, otherwise record a wildcard event. -/
def EthereumLogFilter.from_data_sources (dss : List DataSource) : EthereumLogFilter :=
  dss.foldl
    (fun this ds =>
      ds.mapping.event_handlers.foldl
        (fun this event_sig =>
          match ds.source.address with
          | some contract =>
            { this with
              contracts_and_events_graph :=
                this.contracts_and_events_graph.add_edge
                  (LogFilterNode.Contract contract) (LogFilterNode.Event event_sig) }
          | none =>
            { this with
              wildcard_events := insertNew this.wildcard_events event_sig })
        this)
    ⟨⟨[], []⟩, []⟩

/-- Mirrors `Iterator::max_by_key` folded from an initial candidate: later
elements replace the candidate when their key is at least as large, so ties
return the last maximal element, as in Rust. -/
def maxByKeyAux (key : LogFilterNode → Nat) (m : LogFilterNode) :
    List LogFilterNode → LogFilterNode
  | [] => m
  | x :: xs => maxByKeyAux key (if key m ≤ key x then x else m) xs

/-- Mirrors `g.nodes().max_by_key(|&n| g.neighbors(n).count())`: `none` models
the `unwrap` panic on an empty node set. -/
def maxByKeyLast (key : LogFilterNode → Nat) : List LogFilterNode → Option LogFilterNode
  | [] => none
  | x :: xs => some (maxByKeyAux key x xs)

/-- Mirrors the `for neighbor in g.neighbors(max_vertex)` body: push the
neighbor onto the side its tag selects (adapter.rs lines 253-258). -/
def pushNeighbor (f : EthGetLogsFilter) (n : LogFilterNode) : EthGetLogsFilter :=
  match n with
  | .Contract a => { f with contracts := f.contracts ++ [a] }
  | .Event s => { f with event_signatures := f.event_signatures ++ [s] }

/-- Mirrors the loop body of `eth_get_logs_filters` building one window: start
from the singleton side given by the vertex, then push each neighbor onto the
side its tag selects (adapter.rs lines 243-258). -/
def windowOfVertex (g : GraphMap) (v : LogFilterNode) : EthGetLogsFilter :=
  let base : EthGetLogsFilter :=
    match v with
    | .Contract a => ⟨[a], []⟩
    | .Event s => ⟨[], [s]⟩
  (g.neighborsOf v).foldl pushNeighbor base

/-- Mirrors the `while g.edge_count() > 0` loop of `eth_get_logs_filters`
(adapter.rs lines 239-267).  The loop terminates because removing the
maximum-degree vertex deletes at least one edge; the fuel is instantiated with
the initial edge count, which suffices (`planLoopFuel_covers` and
`planLoopFuel_windows` below hold for any sufficient fuel).  A `none` from the
`unwrap` on the maximum-degree vertex ends the loop; `maxVertex_isSome` shows
the branch is unreachable on well-formed graphs. -/
def planLoopFuel : Nat → GraphMap → List EthGetLogsFilter
  | 0, _ => []
  | fuel + 1, g =>
    if g.edge_count = 0 then []
    else
      match maxByKeyLast g.degree g.nodes with
      | none => []
      | some v => windowOfVertex g v :: planLoopFuel fuel (g.remove_node v)

/-- Mirrors `EthereumLogFilter::eth_get_logs_filters` (adapter.rs lines
215-269): one wildcard window per wildcard event, then the greedy
maximum-degree cover of the bipartite graph. -/
def EthereumLogFilter.eth_get_logs_filters (f : EthereumLogFilter) :
    List EthGetLogsFilter :=
  (f.wildcard_events.map fun s => EthGetLogsFilter.mk [] [s]) ++
    planLoopFuel f.contracts_and_events_graph.edge_count f.contracts_and_events_graph

/-- Mirrors `EthereumBlockTriggerType` (types.rs; shape given by §4.F). -/
inductive EthereumBlockTriggerType where
  | Every
  | WithCallTo (a : Address)
deriving DecidableEq, Repr

/-- Modelled from the spec: §4.F `TriggerModel`, the sum type over log, call and
block triggers (`EthereumTrigger` lives in types.rs, outside src/). -/
inductive EthereumTrigger where
  | Log (l : Log)
  | Call (c : EthereumCall)
  | Block (ptr : EthereumBlockPointer) (kind : EthereumBlockTriggerType)
deriving DecidableEq, Repr

namespace EthereumTrigger

/-- Modelled from the spec: every trigger exposes `block_number()` (§4.F). -/
def block_number : EthereumTrigger → Nat
  | .Log l => l.block_number
  | .Call c => c.block_number
  | .Block p _ => p.number

/-- Modelled from the spec: every trigger exposes `block_hash()` (§4.F). -/
def block_hash : EthereumTrigger → H256
  | .Log l => l.block_hash
  | .Call c => c.block_hash
  | .Block p _ => p.hash

end EthereumTrigger

/-- Modelled from the spec: §3 `BlockWithTriggers`; the source type wraps the
block in `BlockFinality::Final`, which carries no information used here. -/
structure EthereumBlockWithTriggers where
  triggers : List EthereumTrigger
  ethereum_block : LightEthereumBlock
deriving DecidableEq, Repr

/-- The successful results of the upstream sub-scans and lookups consumed by
one `blocks_with_triggers` call: `logs_in_block_range`, `calls_in_block_range`
(for the call filter and for the derived block filter), `block_range_to_ptrs`,
`block_hash_by_block_number(to)`, and the per-hash block bodies served by
`load_blocks`. -/
structure ScanOracle where
  logs : List Log
  calls : List EthereumCall
  ptrs : List EthereumBlockPointer
  blockCalls : List EthereumCall
  toHash : Option H256
  blockOf : H256 → LightEthereumBlock

/-- Mirrors `EthereumBlockPointer::from(&call)` (types.rs; §3 pairs the call's
block number with its block hash). -/
def EthereumBlockPointer.fromCall (c : EthereumCall) : EthereumBlockPointer :=
  ⟨c.block_number, c.block_hash⟩

/-- The vectors of triggers pushed into `FuturesUnordered`, in push order
(adapter.rs lines 737-781): logs if the log filter is non-empty, calls if the
call filter is non-empty, then either every-block pointers or block-filter
calls. -/
def triggerFuts (logF : EthereumLogFilter) (callF : EthereumCallFilter)
    (blockF : EthereumBlockFilter) (o : ScanOracle) : List (List EthereumTrigger) :=
  (if logF.is_empty then [] else [o.logs.map EthereumTrigger.Log]) ++
    (if callF.is_empty then [] else [o.calls.map EthereumTrigger.Call]) ++
    (if blockF.trigger_every_block then
      [o.ptrs.map fun p => EthereumTrigger.Block p EthereumBlockTriggerType.Every]
    else if blockF.contract_addresses.isEmpty then []
    else
      [o.blockCalls.map fun c =>
        EthereumTrigger.Block (EthereumBlockPointer.fromCall c)
          (EthereumBlockTriggerType.WithCallTo c.to_addr)])

/-- Mirrors `FuturesUnordered::concat2`: the pushed result vectors are
concatenated in completion order, here an explicit list of indices into the
push-ordered list (an index out of range contributes nothing). -/
def concatInOrder (futs : List (List EthereumTrigger)) (order : List Nat) :
    List EthereumTrigger :=
  (order.map fun i => futs.getD i []).flatten

/-- Pointwise update of the trigger map, modelling `HashMap` insertion and
removal on `triggers_by_block`. -/
def mapUpd (m : Nat → Option (List EthereumTrigger)) (k : Nat)
    (v : Option (List EthereumTrigger)) : Nat → Option (List EthereumTrigger) :=
  fun n => if n = k then v else m n

/-- Mirrors the fold building `triggers_by_block`
(`map.entry(t.block_number()).or_default().push(t)`, adapter.rs lines 791-795). -/
def groupByBlock (ts : List EthereumTrigger) : Nat → Option (List EthereumTrigger) :=
  ts.foldl
    (fun m t =>
      mapUpd m t.block_number (some ((m t.block_number).getD [] ++ [t])))
    (fun _ => none)

/-- Mirrors collecting `triggers.iter().map(EthereumTrigger::block_hash)` into a
`HashSet` (adapter.rs lines 789-790). -/
def blockHashes (ts : List EthereumTrigger) : List H256 :=
  ts.foldl (fun hs t => insertNew hs t.block_hash) []

/-- Mirrors the `load_blocks(..).map(..)` stage (adapter.rs lines 805-815):
each fetched block takes its triggers out of the map exactly once; a missing
entry is the `triggers_by_block.remove(..).unwrap()` panic. -/
def consumeBlocks (m : Nat → Option (List EthereumTrigger)) :
    List LightEthereumBlock → Option (List EthereumBlockWithTriggers)
  | [] => some []
  | b :: bs =>
    match m b.number with
    | none => none
    | some ts =>
      (consumeBlocks (mapUpd m b.number none) bs).map
        fun rest => ⟨ts, b⟩ :: rest

/-- Insertion step of a stable ascending sort by block number. -/
def insertByNumber (x : EthereumBlockWithTriggers) :
    List EthereumBlockWithTriggers → List EthereumBlockWithTriggers
  | [] => [x]
  | y :: ys =>
    if x.ethereum_block.number ≤ y.ethereum_block.number then x :: y :: ys
    else y :: insertByNumber x ys

/-- Mirrors `blocks.sort_by_key(|block| block.ethereum_block.number())`
(adapter.rs lines 816-818). -/
def sortByNumber (l : List EthereumBlockWithTriggers) :
    List EthereumBlockWithTriggers :=
  l.foldr insertByNumber []

/-- Mirrors `triggers_by_block.entry(to).or_insert(Vec::new())` (adapter.rs
line 801): the trigger map with an entry for the terminal block ensured. -/
def tbbWithTerminal (triggers : List EthereumTrigger) (to_blk : Nat) :
    Nat → Option (List EthereumTrigger) :=
  if (groupByBlock triggers to_blk).isSome then groupByBlock triggers
  else mapUpd (groupByBlock triggers) to_blk (some [])

/-- Mirrors the collation stages of `blocks_with_triggers` after the joined
triggers and the terminal hash are available (adapter.rs lines 788-819):
collect block hashes, force-include the terminal hash, group triggers by block
number with the terminal entry ensured, fetch and consume the blocks, and sort
by block number. -/
def collate (to_blk : Nat) (triggers : List EthereumTrigger) (toh : H256)
    (blockOf : H256 → LightEthereumBlock) :
    Option (List EthereumBlockWithTriggers) :=
  (consumeBlocks (tbbWithTerminal triggers to_blk)
    ((insertNew (blockHashes triggers) toh).map blockOf)).map sortByNumber

/-- Mirrors the default-method body of `EthereumAdapter::blocks_with_triggers`
(adapter.rs lines 722-822), with the upstream node abstracted by `o` and the
completion order of the unordered sub-scan futures by `order`.  `none` models
failure: either the `to_hash.unwrap()` panic when the terminal hash is
unavailable, or the `triggers_by_block.remove(..).unwrap()` panic. -/
def blocks_with_triggers (frm to_blk : Nat) (logF : EthereumLogFilter)
    (callF : EthereumCallFilter) (blockF : EthereumBlockFilter) (o : ScanOracle)
    (order : List Nat) : Option (List EthereumBlockWithTriggers) :=
  let _ := frm
  match o.toHash with
  | none => none
  | some toh =>
    collate to_blk (concatInOrder (triggerFuts logF callF blockF o) order) toh
      o.blockOf

def isLogT : EthereumTrigger → Bool
  | .Log _ => true
  | _ => false

def isCallT : EthereumTrigger → Bool
  | .Call _ => true
  | _ => false

def isBlockT : EthereumTrigger → Bool
  | .Block _ _ => true
  | _ => false

/-- The within-block ordering the spec claims: all log triggers (in their
relative order), then all call triggers, then all block triggers — equivalently
the list equals its log part, call part and block part concatenated. -/
def claimOrdered (ts : List EthereumTrigger) : Prop :=
  ts = ts.filter isLogT ++ ts.filter isCallT ++ ts.filter isBlockT

instance (ts : List EthereumTrigger) : Decidable (claimOrdered ts) := by
  unfold claimOrdered; infer_instance

/-- A log filter with a single wildcard event `2` (non-empty). -/
def logFilterW : EthereumLogFilter := ⟨⟨[], []⟩, [2]⟩

/-- A log filter of one edge, contract `1` subscribed to event `2`. -/
def logFilterE : EthereumLogFilter :=
  ⟨⟨[.Contract 1, .Event 2], [(.Contract 1, .Event 2)]⟩, []⟩

/-- The empty log filter. -/
def logFilter0 : EthereumLogFilter := ⟨⟨[], []⟩, []⟩

/-- A call filter interested in any call to address `1` from block `0`. -/
def callFilterA : EthereumCallFilter := ⟨[(1, (0, []))]⟩

/-- The empty call filter. -/
def callFilter0 : EthereumCallFilter := ⟨[]⟩

/-- The empty block filter. -/
def blockFilter0 : EthereumBlockFilter := ⟨[], false⟩

/-- A log at block 5 (hash 50) from address 1 with first topic 2. -/
def log5 : Log := ⟨1, [2], 5, 50⟩

/-- A call at block 5 (hash 50) to address 1 with empty input. -/
def call5 : EthereumCall := ⟨1, [], 5, 50⟩

/-- An oracle for a single-block scan of block 5: one matching log, one
matching call, terminal hash 50 resolving to block 5. -/
def oracle5 : ScanOracle :=
  ⟨[log5], [call5], [], [], some 50, fun _ => ⟨5, 50⟩⟩

/-- An oracle with no triggers whose terminal hash 7 resolves to block 0. -/
def oracle0 : ScanOracle :=
  ⟨[], [], [], [], some 7, fun _ => ⟨0, 7⟩⟩

/-!  Theorems.  -/

/-- C6: `EthereumLogFilter::matches` returns true iff the log has at least one
topic and either the contract/event edge for `(log.address, log.topics[0])` is
in the bipartite graph (in either orientation) or the first topic is a wildcard
event; in particular a log with no topics never matches. -/
theorem log_filter_matchesL_iff (f : EthereumLogFilter) (L : Log) :
    (f.matchesL L = true ↔
      ∃ s, L.topics.head? = some s ∧
        (f.contracts_and_events_graph.hasEdge (.Contract L.address) (.Event s) = true
          ∨ s ∈ f.wildcard_events))
    ∧ (L.topics = [] → f.matchesL L = false) := by
  constructor
  · unfold EthereumLogFilter.matchesL GraphMap.hasEdge
    cases h : L.topics.head? with
    | none => simp
    | some sig =>
      simp only [Bool.or_eq_true, List.any_eq_true, decide_eq_true_eq,
        List.contains, List.elem_eq_mem]
      constructor
      · rintro (⟨e, he, hor⟩ | hw)
        · exact ⟨sig, rfl, Or.inl ⟨e, he, by tauto⟩⟩
        · exact ⟨sig, rfl, Or.inr hw⟩
      · rintro ⟨s, hs, hor⟩
        injection hs with hs
        subst hs
        rcases hor with ⟨e, he, h1⟩ | hw
        · exact Or.inl ⟨e, he, by tauto⟩
        · exact Or.inr hw
  · intro h
    unfold EthereumLogFilter.matchesL
    simp [h]

/-- C10: if the call filter holds a non-empty selector set for `call.to`, then
`EthereumCallFilter::matches` slices `call.input.0[..4]`, which panics (here:
`none`) whenever the input is shorter than 4 bytes; with at least 4 bytes of
input the evaluation is total. -/
theorem call_filter_matchesM_short_input_panics
    (f : EthereumCallFilter) (call : EthereumCall) (sb : Nat)
    (sigs : List FunctionSelector)
    (hl : lookupAddr f.contract_addresses_function_signatures call.to_addr
        = some (sb, sigs))
    (hne : sigs ≠ []) :
    (call.input.length < 4 → f.matchesM call = none)
      ∧ (4 ≤ call.input.length → (f.matchesM call).isSome) := by
  unfold EthereumCallFilter.matchesM
  rw [hl]
  have hie : sigs.isEmpty = false := by
    cases sigs with
    | nil => exact absurd rfl hne
    | cons a l => rfl
  refine ⟨fun h4 => ?_, fun h4 => ?_⟩
  · simp [hie, h4]
  · simp [hie, Nat.not_lt.mpr h4]

theorem call_filter_matchesM_short_input_panics_witness :
    (lookupAddr (EthereumCallFilter.mk
        [(1, (0, [[0, 0, 0, 0]]))]).contract_addresses_function_signatures
        call5.to_addr = some (0, [[0, 0, 0, 0]]))
    ∧ ([[0, 0, 0, 0]] ≠ ([] : List FunctionSelector))
    ∧ ((call5.input.length < 4 →
          (EthereumCallFilter.mk [(1, (0, [[0, 0, 0, 0]]))]).matchesM call5 = none)
        ∧ (4 ≤ call5.input.length →
          ((EthereumCallFilter.mk [(1, (0, [[0, 0, 0, 0]]))]).matchesM call5).isSome)) :=
  ⟨by decide, by decide,
    call_filter_matchesM_short_input_panics
      (EthereumCallFilter.mk [(1, (0, [[0, 0, 0, 0]]))]) call5 0 [[0, 0, 0, 0]]
      (by decide) (by decide)⟩

theorem lookupAddr_cons {β : Type} (p : Address × β) (ps : List (Address × β))
    (q : Address) :
    lookupAddr (p :: ps) q = if p.1 = q then some p.2 else lookupAddr ps q := rfl

theorem lookupAddr_updateAddr_ne {β : Type} {m : List (Address × β)}
    {a q : Address} {v : β} (h : q ≠ a) :
    lookupAddr (updateAddr m a v) q = lookupAddr m q := by
  induction m with
  | nil => rfl
  | cons p ps ih =>
    simp only [updateAddr, List.map_cons] at *
    by_cases hp : p.1 = a
    · rw [if_pos hp, lookupAddr_cons, lookupAddr_cons]
      rw [if_neg (fun hqa => h hqa.symm), if_neg (fun hq => h (hp ▸ hq).symm)]
      exact ih
    · rw [if_neg hp, lookupAddr_cons, lookupAddr_cons]
      by_cases hq : p.1 = q
      · rw [if_pos hq, if_pos hq]
      · rw [if_neg hq, if_neg hq]; exact ih

theorem lookupAddr_updateAddr_eq {β : Type} {m : List (Address × β)}
    {a : Address} {v w : β} (h : lookupAddr m a = some w) :
    lookupAddr (updateAddr m a v) a = some v := by
  induction m with
  | nil => exact absurd h (by simp [lookupAddr])
  | cons p ps ih =>
    simp only [updateAddr, List.map_cons]
    by_cases hp : p.1 = a
    · rw [if_pos hp, lookupAddr_cons, if_pos rfl]
    · rw [if_neg hp, lookupAddr_cons, if_neg hp]
      rw [lookupAddr_cons, if_neg hp] at h
      exact ih h

theorem lookupAddr_append_some {β : Type} {m₁ m₂ : List (Address × β)}
    {q : Address} {v : β} (h : lookupAddr m₁ q = some v) :
    lookupAddr (m₁ ++ m₂) q = some v := by
  induction m₁ with
  | nil => exact absurd h (by simp [lookupAddr])
  | cons p ps ih =>
    rw [List.cons_append, lookupAddr_cons]
    rw [lookupAddr_cons] at h
    by_cases hp : p.1 = q
    · rw [if_pos hp]; rw [if_pos hp] at h; exact h
    · rw [if_neg hp]; rw [if_neg hp] at h; exact ih h

theorem lookupAddr_append_none {β : Type} {m₁ m₂ : List (Address × β)}
    {q : Address} (h : lookupAddr m₁ q = none) :
    lookupAddr (m₁ ++ m₂) q = lookupAddr m₂ q := by
  induction m₁ with
  | nil => rfl
  | cons p ps ih =>
    rw [List.cons_append, lookupAddr_cons]
    rw [lookupAddr_cons] at h
    by_cases hp : p.1 = q
    · rw [if_pos hp] at h; exact absurd h (by simp)
    · rw [if_neg hp]; rw [if_neg hp] at h; exact ih h

theorem lookupAddr_eq_none_iff {β : Type} {m : List (Address × β)} {q : Address} :
    lookupAddr m q = none ↔ q ∉ m.map Prod.fst := by
  induction m with
  | nil => simp [lookupAddr]
  | cons p ps ih =>
    rw [lookupAddr_cons]
    by_cases hp : p.1 = q
    · simp [hp]
    · simp only [List.map_cons, List.mem_cons, if_neg hp, ih]
      constructor
      · rintro h (h1 | h2)
        · exact hp h1.symm
        · exact h h2
      · intro h h2
        exact h (Or.inr h2)

theorem mem_insertNew {α : Type} [DecidableEq α] {l : List α} {x y : α} :
    y ∈ insertNew l x ↔ y ∈ l ∨ y = x := by
  unfold insertNew
  by_cases h : x ∈ l
  · rw [if_pos h]
    constructor
    · exact Or.inl
    · rintro (h1 | rfl)
      · exact h1
      · exact h
  · rw [if_neg h]
    simp

theorem mem_selExtend {a b : List FunctionSelector} {s : FunctionSelector} :
    s ∈ selExtend a b ↔ s ∈ a ∨ s ∈ b := by
  induction b generalizing a with
  | nil => simp [selExtend]
  | cons x xs ih =>
    show s ∈ selExtend (insertNew a x) xs ↔ _
    rw [ih, mem_insertNew]
    simp only [List.mem_cons]
    tauto

theorem extendStep_lookup_ne {acc : List (Address × (Nat × List FunctionSelector))}
    {p : Address × (Nat × List FunctionSelector)} {q : Address} (h : p.1 ≠ q) :
    lookupAddr (EthereumCallFilter.extendStep acc p) q = lookupAddr acc q := by
  unfold EthereumCallFilter.extendStep
  cases hl : lookupAddr acc p.1 with
  | none =>
    cases hq : lookupAddr acc q with
    | none =>
      rw [lookupAddr_append_none hq, lookupAddr_cons, if_neg h]
      rfl
    | some v => rw [lookupAddr_append_some hq]
  | some v =>
    obtain ⟨esb, esigs⟩ := v
    exact lookupAddr_updateAddr_ne (fun hq => h hq.symm)

theorem extendStep_lookup_hit {acc : List (Address × (Nat × List FunctionSelector))}
    {p : Address × (Nat × List FunctionSelector)} {esb : Nat}
    {esigs : List FunctionSelector} (h : lookupAddr acc p.1 = some (esb, esigs)) :
    lookupAddr (EthereumCallFilter.extendStep acc p) p.1
      = some (min p.2.1 esb, selExtend esigs p.2.2) := by
  unfold EthereumCallFilter.extendStep
  rw [h]
  exact lookupAddr_updateAddr_eq h

theorem extendStep_lookup_miss {acc : List (Address × (Nat × List FunctionSelector))}
    {p : Address × (Nat × List FunctionSelector)}
    (h : lookupAddr acc p.1 = none) :
    lookupAddr (EthereumCallFilter.extendStep acc p) p.1 = some p.2 := by
  unfold EthereumCallFilter.extendStep
  rw [h, lookupAddr_append_none h, lookupAddr_cons, if_pos rfl]

theorem extendFold_lookup_not_mem
    {bs acc : List (Address × (Nat × List FunctionSelector))} {q : Address}
    (h : q ∉ bs.map Prod.fst) :
    lookupAddr (bs.foldl EthereumCallFilter.extendStep acc) q = lookupAddr acc q := by
  induction bs generalizing acc with
  | nil => rfl
  | cons p ps ih =>
    simp only [List.map_cons, List.mem_cons] at h
    push_neg at h
    rw [List.foldl_cons, ih h.2, extendStep_lookup_ne (fun hp => h.1 hp.symm)]

theorem extendFold_lookup_both
    {bs acc : List (Address × (Nat × List FunctionSelector))} {q : Address}
    {sb sa : Nat} {ssb ssa : List FunctionSelector}
    (hnd : NoDupKeys bs) (hb : lookupAddr bs q = some (sb, ssb))
    (ha : lookupAddr acc q = some (sa, ssa)) :
    lookupAddr (bs.foldl EthereumCallFilter.extendStep acc) q
      = some (min sb sa, selExtend ssa ssb) := by
  induction bs generalizing acc with
  | nil => exact absurd hb (by simp [lookupAddr])
  | cons p ps ih =>
    rw [lookupAddr_cons] at hb
    have hnd' : NoDupKeys ps := (List.nodup_cons.mp hnd).2
    by_cases hp : p.1 = q
    · rw [if_pos hp] at hb
      have hnotin : q ∉ ps.map Prod.fst := by
        rw [← hp]; exact (List.nodup_cons.mp hnd).1
      have hacc : lookupAddr acc p.1 = some (sa, ssa) := by rw [hp]; exact ha
      rw [List.foldl_cons, extendFold_lookup_not_mem hnotin, ← hp,
        extendStep_lookup_hit hacc]
      injection hb with hb
      rw [hb]
    · rw [if_neg hp] at hb
      rw [List.foldl_cons]
      exact ih hnd' hb (by rw [extendStep_lookup_ne hp]; exact ha)

theorem extendFold_lookup_right_only
    {bs acc : List (Address × (Nat × List FunctionSelector))} {q : Address}
    {sb : Nat} {ssb : List FunctionSelector}
    (hnd : NoDupKeys bs) (hb : lookupAddr bs q = some (sb, ssb))
    (ha : lookupAddr acc q = none) :
    lookupAddr (bs.foldl EthereumCallFilter.extendStep acc) q = some (sb, ssb) := by
  induction bs generalizing acc with
  | nil => exact absurd hb (by simp [lookupAddr])
  | cons p ps ih =>
    rw [lookupAddr_cons] at hb
    have hnd' : NoDupKeys ps := (List.nodup_cons.mp hnd).2
    by_cases hp : p.1 = q
    · rw [if_pos hp] at hb
      have hnotin : q ∉ ps.map Prod.fst := by
        rw [← hp]; exact (List.nodup_cons.mp hnd).1
      have hacc : lookupAddr acc p.1 = none := by rw [hp]; exact ha
      rw [List.foldl_cons, extendFold_lookup_not_mem hnotin, ← hp,
        extendStep_lookup_miss hacc, hb]
    · rw [if_neg hp] at hb
      rw [List.foldl_cons]
      exact ih hnd' hb (by rw [extendStep_lookup_ne hp]; exact ha)

/-- C8: `EthereumCallFilter::extend` merges per address: an address present in
both operands maps to the minimum of the two start blocks and the union of the
two selector sets; an address present in only one operand keeps that operand's
entry unchanged. -/
theorem call_filter_extend_spec (a b : EthereumCallFilter) (addr : Address)
    (hb : NoDupKeys b.contract_addresses_function_signatures) :
    (∀ sa ssa sb ssb,
        lookupAddr a.contract_addresses_function_signatures addr = some (sa, ssa) →
        lookupAddr b.contract_addresses_function_signatures addr = some (sb, ssb) →
        ∃ ss, lookupAddr (a.extend b).contract_addresses_function_signatures addr
            = some (min sa sb, ss) ∧ ∀ s, s ∈ ss ↔ s ∈ ssa ∨ s ∈ ssb)
    ∧ (lookupAddr b.contract_addresses_function_signatures addr = none →
        lookupAddr (a.extend b).contract_addresses_function_signatures addr
          = lookupAddr a.contract_addresses_function_signatures addr)
    ∧ (lookupAddr a.contract_addresses_function_signatures addr = none →
        lookupAddr (a.extend b).contract_addresses_function_signatures addr
          = lookupAddr b.contract_addresses_function_signatures addr) := by
  refine ⟨fun sa ssa sb ssb ha hbl => ?_, fun hbn => ?_, fun han => ?_⟩
  · refine ⟨selExtend ssa ssb, ?_, fun s => mem_selExtend⟩
    show lookupAddr (b.contract_addresses_function_signatures.foldl
        EthereumCallFilter.extendStep a.contract_addresses_function_signatures) addr = _
    rw [extendFold_lookup_both hb hbl ha, Nat.min_comm]
  · exact extendFold_lookup_not_mem (lookupAddr_eq_none_iff.mp hbn)
  · cases hbl : lookupAddr b.contract_addresses_function_signatures addr with
    | none =>
      have h1 : lookupAddr (a.extend b).contract_addresses_function_signatures addr
          = lookupAddr a.contract_addresses_function_signatures addr :=
        extendFold_lookup_not_mem (lookupAddr_eq_none_iff.mp hbl)
      rw [h1, han]
    | some v =>
      obtain ⟨sb, ssb⟩ := v
      exact extendFold_lookup_right_only hb hbl han

theorem call_filter_extend_spec_witness :
    NoDupKeys (EthereumCallFilter.mk
        [(1, (3, [[1, 1, 1, 1]])), (2, (9, []))]).contract_addresses_function_signatures
    ∧ ((∀ sa ssa sb ssb,
        lookupAddr (EthereumCallFilter.mk
            [(1, (7, [[0, 0, 0, 0]]))]).contract_addresses_function_signatures 1
          = some (sa, ssa) →
        lookupAddr (EthereumCallFilter.mk
            [(1, (3, [[1, 1, 1, 1]])), (2, (9, []))]).contract_addresses_function_signatures 1
          = some (sb, ssb) →
        ∃ ss, lookupAddr ((EthereumCallFilter.mk [(1, (7, [[0, 0, 0, 0]]))]).extend
              (EthereumCallFilter.mk
                [(1, (3, [[1, 1, 1, 1]])), (2, (9, []))])).contract_addresses_function_signatures 1
            = some (min sa sb, ss) ∧ ∀ s, s ∈ ss ↔ s ∈ ssa ∨ s ∈ ssb)
      ∧ (lookupAddr (EthereumCallFilter.mk
            [(1, (3, [[1, 1, 1, 1]])), (2, (9, []))]).contract_addresses_function_signatures 1
          = none →
        lookupAddr ((EthereumCallFilter.mk [(1, (7, [[0, 0, 0, 0]]))]).extend
            (EthereumCallFilter.mk
              [(1, (3, [[1, 1, 1, 1]])), (2, (9, []))])).contract_addresses_function_signatures 1
          = lookupAddr (EthereumCallFilter.mk
              [(1, (7, [[0, 0, 0, 0]]))]).contract_addresses_function_signatures 1)
      ∧ (lookupAddr (EthereumCallFilter.mk
            [(1, (7, [[0, 0, 0, 0]]))]).contract_addresses_function_signatures 1 = none →
        lookupAddr ((EthereumCallFilter.mk [(1, (7, [[0, 0, 0, 0]]))]).extend
            (EthereumCallFilter.mk
              [(1, (3, [[1, 1, 1, 1]])), (2, (9, []))])).contract_addresses_function_signatures 1
          = lookupAddr (EthereumCallFilter.mk
              [(1, (3, [[1, 1, 1, 1]])), (2, (9, []))]).contract_addresses_function_signatures 1)) :=
  ⟨by decide,
    call_filter_extend_spec (EthereumCallFilter.mk [(1, (7, [[0, 0, 0, 0]]))])
      (EthereumCallFilter.mk [(1, (3, [[1, 1, 1, 1]])), (2, (9, []))]) 1 (by decide)⟩

/-- C2 (code bug): a data source with an address, start block 5 and one block
handler with `filter == Call` should contribute `(5, address)` to
`contract_addresses`, but `from_data_sources` returns an empty set: its
accumulator starts empty and `extend` folds over the accumulator only, so the
per-source addresses are always dropped. -/
theorem block_filter_from_data_sources_drops_call_addresses :
    EthereumBlockFilter.from_data_sources
        [⟨⟨some 1, 5⟩, ⟨[], [⟨some BlockHandlerFilter.Call⟩]⟩⟩]
      = ⟨[], false⟩ := by
  decide

/-- C3 (code bug): extending the empty block filter with one holding
`(5, address 1)` should yield a filter containing `(5, 1)`, but the fold in
`extend` ranges over `self.contract_addresses` only, so every address present
only in `other` is dropped and the result is empty. -/
theorem block_filter_extend_drops_right_only_addresses :
    (EthereumBlockFilter.mk [] false).extend (EthereumBlockFilter.mk [(5, 1)] false)
      = ⟨[], false⟩ := by
  decide

theorem maxByKeyAux_mem (key : LogFilterNode → Nat) (m : LogFilterNode)
    (l : List LogFilterNode) : maxByKeyAux key m l = m ∨ maxByKeyAux key m l ∈ l := by
  induction l generalizing m with
  | nil => exact Or.inl rfl
  | cons x xs ih =>
    simp only [maxByKeyAux]
    by_cases hc : key m ≤ key x
    · rw [if_pos hc]
      rcases ih x with h | h
      · exact Or.inr (List.mem_cons.mpr (Or.inl h))
      · exact Or.inr (List.mem_cons.mpr (Or.inr h))
    · rw [if_neg hc]
      rcases ih m with h | h
      · exact Or.inl h
      · exact Or.inr (List.mem_cons.mpr (Or.inr h))

theorem maxByKeyAux_ge (key : LogFilterNode → Nat) (m : LogFilterNode)
    (l : List LogFilterNode) :
    key m ≤ key (maxByKeyAux key m l)
      ∧ ∀ x ∈ l, key x ≤ key (maxByKeyAux key m l) := by
  induction l generalizing m with
  | nil => exact ⟨Nat.le_refl _, by simp⟩
  | cons x xs ih =>
    simp only [maxByKeyAux]
    by_cases hc : key m ≤ key x
    · rw [if_pos hc]
      obtain ⟨h1, h2⟩ := ih x
      refine ⟨Nat.le_trans hc h1, fun y hy => ?_⟩
      rcases List.mem_cons.mp hy with rfl | hy
      · exact h1
      · exact h2 y hy
    · rw [if_neg hc]
      obtain ⟨h1, h2⟩ := ih m
      refine ⟨h1, fun y hy => ?_⟩
      rcases List.mem_cons.mp hy with rfl | hy
      · exact Nat.le_trans (Nat.le_of_lt (Nat.lt_of_not_le hc)) h1
      · exact h2 y hy

theorem maxByKeyLast_spec {key : LogFilterNode → Nat} {l : List LogFilterNode}
    {v : LogFilterNode} (h : maxByKeyLast key l = some v) :
    v ∈ l ∧ ∀ x ∈ l, key x ≤ key v := by
  cases l with
  | nil => cases h
  | cons x xs =>
    injection h with h
    subst h
    obtain ⟨h1, h2⟩ := maxByKeyAux_ge key x xs
    constructor
    · rcases maxByKeyAux_mem key x xs with h | h
      · rw [h]; exact List.mem_cons_self x xs
      · exact List.mem_cons_of_mem x h
    · intro y hy
      rcases List.mem_cons.mp hy with rfl | hy
      · exact h1
      · exact h2 y hy

theorem maxByKeyLast_isSome {key : LogFilterNode → Nat} {l : List LogFilterNode}
    (h : l ≠ []) : (maxByKeyLast key l).isSome := by
  cases l with
  | nil => exact absurd rfl h
  | cons x xs => rfl

theorem mem_neighborsOf_left {g : GraphMap} {a b : LogFilterNode}
    (h : (a, b) ∈ g.edges) : b ∈ g.neighborsOf a := by
  refine List.mem_filterMap.mpr ⟨(a, b), h, ?_⟩
  simp

theorem mem_neighborsOf_right {g : GraphMap} {a b : LogFilterNode}
    (h : (a, b) ∈ g.edges) : a ∈ g.neighborsOf b := by
  refine List.mem_filterMap.mpr ⟨(a, b), h, ?_⟩
  by_cases hab : a = b
  · simp [hab]
  · simp [hab]

theorem exists_edge_of_mem_neighborsOf {g : GraphMap} {v n : LogFilterNode}
    (h : n ∈ g.neighborsOf v) :
    ∃ e ∈ g.edges, (e.1 = v ∧ e.2 = n) ∨ (e.2 = v ∧ e.1 = n) := by
  obtain ⟨e, he, hf⟩ := List.mem_filterMap.mp h
  by_cases h1 : e.1 = v
  · rw [if_pos h1] at hf
    injection hf with hf
    exact ⟨e, he, Or.inl ⟨h1, hf⟩⟩
  · rw [if_neg h1] at hf
    by_cases h2 : e.2 = v
    · rw [if_pos h2] at hf
      injection hf with hf
      exact ⟨e, he, Or.inr ⟨h2, hf⟩⟩
    · rw [if_neg h2] at hf
      cases hf

theorem degree_pos_left {g : GraphMap} {e : LogFilterNode × LogFilterNode}
    (h : e ∈ g.edges) : 0 < g.degree e.1 := by
  have : e.2 ∈ g.neighborsOf e.1 := mem_neighborsOf_left h
  exact List.length_pos.mpr (fun hnil => by rw [hnil] at this; cases this)

theorem WF_remove_node {g : GraphMap} {v : LogFilterNode} (h : g.WF) :
    (g.remove_node v).WF := by
  intro e he
  have he' : e ∈ g.edges ∧ ¬(e.1 = v ∨ e.2 = v) := by
    simpa [GraphMap.remove_node] using he
  obtain ⟨hm, hcond⟩ := he'
  push_neg at hcond
  obtain ⟨h1, h2⟩ := h e hm
  constructor
  · simp only [GraphMap.remove_node, List.mem_filter, decide_eq_true_eq]
    exact ⟨h1, hcond.1⟩
  · simp only [GraphMap.remove_node, List.mem_filter, decide_eq_true_eq]
    exact ⟨h2, hcond.2⟩

theorem Bipartite_remove_node {g : GraphMap} {v : LogFilterNode}
    (h : g.Bipartite) : (g.remove_node v).Bipartite := by
  intro e he
  have he' : e ∈ g.edges ∧ ¬(e.1 = v ∨ e.2 = v) := by
    simpa [GraphMap.remove_node] using he
  exact h e he'.1

theorem mem_remove_node_edges {g : GraphMap} {v : LogFilterNode}
    {e : LogFilterNode × LogFilterNode} (he : e ∈ g.edges) (h1 : e.1 ≠ v)
    (h2 : e.2 ≠ v) : e ∈ (g.remove_node v).edges := by
  simp only [GraphMap.remove_node, List.mem_filter, decide_eq_true_eq]
  push_neg
  exact ⟨he, h1, h2⟩

theorem remove_node_edge_count_lt {g : GraphMap} {v : LogFilterNode}
    (h : ∃ e ∈ g.edges, e.1 = v ∨ e.2 = v) :
    (g.remove_node v).edge_count < g.edge_count := by
  unfold GraphMap.remove_node GraphMap.edge_count
  apply List.length_filter_lt_length_iff_exists.mpr
  obtain ⟨e, he, hor⟩ := h
  refine ⟨e, he, ?_⟩
  simp only [decide_eq_true_eq]
  exact not_not_intro hor

theorem windowFold_contracts (ns : List LogFilterNode) (base : EthGetLogsFilter) :
    (ns.foldl pushNeighbor base).contracts
      = base.contracts ++ ns.filterMap fun n =>
          match n with
          | .Contract a => some a
          | .Event _ => none := by
  induction ns generalizing base with
  | nil => simp
  | cons n ns ih =>
    rw [List.foldl_cons, ih]
    cases n with
    | Contract a => simp [pushNeighbor]
    | Event s => simp [pushNeighbor]

theorem windowFold_events (ns : List LogFilterNode) (base : EthGetLogsFilter) :
    (ns.foldl pushNeighbor base).event_signatures
      = base.event_signatures ++ ns.filterMap fun n =>
          match n with
          | .Event s => some s
          | .Contract _ => none := by
  induction ns generalizing base with
  | nil => simp
  | cons n ns ih =>
    rw [List.foldl_cons, ih]
    cases n with
    | Contract a => simp [pushNeighbor]
    | Event s => simp [pushNeighbor]

theorem neighborsOf_contract_all_events {g : GraphMap} (hb : g.Bipartite)
    {a : Address} {n : LogFilterNode} (h : n ∈ g.neighborsOf (.Contract a)) :
    ∃ s, n = LogFilterNode.Event s := by
  obtain ⟨e, he, hor⟩ := exists_edge_of_mem_neighborsOf h
  have hbip := hb e he
  obtain ⟨x, y⟩ := e
  cases x with
  | Contract c =>
    cases y with
    | Contract c' => simp [edgeBipartite] at hbip
    | Event s =>
      rcases hor with ⟨-, h2⟩ | ⟨h1, -⟩
      · exact ⟨s, h2.symm⟩
      · cases h1
  | Event s =>
    cases y with
    | Contract c =>
      rcases hor with ⟨h1, -⟩ | ⟨-, h2⟩
      · cases h1
      · exact ⟨s, h2.symm⟩
    | Event s' => simp [edgeBipartite] at hbip

theorem neighborsOf_event_all_contracts {g : GraphMap} (hb : g.Bipartite)
    {s : EventSignature} {n : LogFilterNode} (h : n ∈ g.neighborsOf (.Event s)) :
    ∃ a, n = LogFilterNode.Contract a := by
  obtain ⟨e, he, hor⟩ := exists_edge_of_mem_neighborsOf h
  have hbip := hb e he
  obtain ⟨x, y⟩ := e
  cases x with
  | Contract c =>
    cases y with
    | Contract c' => simp [edgeBipartite] at hbip
    | Event s' =>
      rcases hor with ⟨h1, -⟩ | ⟨-, h2⟩
      · cases h1
      · exact ⟨c, h2.symm⟩
  | Event s' =>
    cases y with
    | Contract c =>
      rcases hor with ⟨-, h2⟩ | ⟨h1, -⟩
      · exact ⟨c, h2.symm⟩
      · cases h1
    | Event s'' => simp [edgeBipartite] at hbip

theorem windowOfVertex_base_contract (g : GraphMap) (a : Address) :
    a ∈ (windowOfVertex g (.Contract a)).contracts := by
  simp only [windowOfVertex]
  rw [windowFold_contracts]
  exact List.mem_append.mpr (Or.inl (List.mem_singleton.mpr rfl))

theorem windowOfVertex_base_event (g : GraphMap) (s : EventSignature) :
    s ∈ (windowOfVertex g (.Event s)).event_signatures := by
  simp only [windowOfVertex]
  rw [windowFold_events]
  exact List.mem_append.mpr (Or.inl (List.mem_singleton.mpr rfl))

theorem windowOfVertex_mem_event_neighbor {g : GraphMap} {v : LogFilterNode}
    {s : EventSignature} (h : LogFilterNode.Event s ∈ g.neighborsOf v) :
    s ∈ (windowOfVertex g v).event_signatures := by
  simp only [windowOfVertex]
  rw [windowFold_events]
  exact List.mem_append.mpr (Or.inr (List.mem_filterMap.mpr ⟨.Event s, h, rfl⟩))

theorem windowOfVertex_mem_contract_neighbor {g : GraphMap} {v : LogFilterNode}
    {a : Address} (h : LogFilterNode.Contract a ∈ g.neighborsOf v) :
    a ∈ (windowOfVertex g v).contracts := by
  simp only [windowOfVertex]
  rw [windowFold_contracts]
  exact List.mem_append.mpr (Or.inr (List.mem_filterMap.mpr ⟨.Contract a, h, rfl⟩))

theorem windowOfVertex_contract_shape (g : GraphMap) (hb : g.Bipartite)
    (a : Address) :
    (windowOfVertex g (.Contract a)).contracts = [a]
      ∧ (g.neighborsOf (.Contract a) ≠ [] →
          (windowOfVertex g (.Contract a)).event_signatures ≠ []) := by
  have hall : ∀ n ∈ g.neighborsOf (.Contract a), ∃ s, n = LogFilterNode.Event s :=
    fun n hn => neighborsOf_contract_all_events hb hn
  constructor
  · simp only [windowOfVertex]
    rw [windowFold_contracts]
    have hnil : (g.neighborsOf (.Contract a)).filterMap
        (fun n => match n with | .Contract a => some a | .Event _ => none) = [] := by
      apply List.filterMap_eq_nil_iff.mpr
      intro n hn
      obtain ⟨s, rfl⟩ := hall n hn
      rfl
    rw [hnil, List.append_nil]
  · intro hne
    simp only [windowOfVertex]
    rw [windowFold_events]
    cases hns : g.neighborsOf (.Contract a) with
    | nil => exact absurd hns hne
    | cons n ns =>
      obtain ⟨s, rfl⟩ := hall n (by rw [hns]; exact List.mem_cons_self _ _)
      simp

theorem windowOfVertex_event_shape (g : GraphMap) (hb : g.Bipartite)
    (s : EventSignature) :
    (windowOfVertex g (.Event s)).event_signatures = [s]
      ∧ (g.neighborsOf (.Event s) ≠ [] →
          (windowOfVertex g (.Event s)).contracts ≠ []) := by
  have hall : ∀ n ∈ g.neighborsOf (.Event s), ∃ a, n = LogFilterNode.Contract a :=
    fun n hn => neighborsOf_event_all_contracts hb hn
  constructor
  · simp only [windowOfVertex]
    rw [windowFold_events]
    have hnil : (g.neighborsOf (.Event s)).filterMap
        (fun n => match n with | .Event s => some s | .Contract _ => none) = [] := by
      apply List.filterMap_eq_nil_iff.mpr
      intro n hn
      obtain ⟨a, rfl⟩ := hall n hn
      rfl
    rw [hnil, List.append_nil]
  · intro hne
    simp only [windowOfVertex]
    rw [windowFold_contracts]
    cases hns : g.neighborsOf (.Event s) with
    | nil => exact absurd hns hne
    | cons n ns =>
      obtain ⟨a, rfl⟩ := hall n (by rw [hns]; exact List.mem_cons_self _ _)
      simp

theorem planLoopFuel_windows (fuel : Nat) :
    ∀ (g : GraphMap), g.WF → g.Bipartite →
    ∀ w ∈ planLoopFuel fuel g,
      w.contracts ≠ [] ∧ w.event_signatures ≠ []
        ∧ (w.contracts.length = 1 ∨ w.event_signatures.length = 1) := by
  induction fuel with
  | zero => intro g _ _ w hw; cases hw
  | succ fuel ih =>
    intro g hwf hbip w hw
    simp only [planLoopFuel] at hw
    by_cases hec : g.edge_count = 0
    · rw [if_pos hec] at hw; cases hw
    · rw [if_neg hec] at hw
      cases hmv : maxByKeyLast g.degree g.nodes with
      | none => rw [hmv] at hw; cases hw
      | some v =>
        rw [hmv] at hw
        rcases List.mem_cons.mp hw with rfl | hw
        · obtain ⟨e, he⟩ := List.exists_mem_of_ne_nil g.edges
            (fun hnil => hec (by simp [GraphMap.edge_count, hnil]))
          have hdeg1 : 0 < g.degree v := by
            have h1 : 0 < g.degree e.1 := degree_pos_left he
            have h2 : g.degree e.1 ≤ g.degree v :=
              (maxByKeyLast_spec hmv).2 e.1 (hwf e he).1
            exact Nat.lt_of_lt_of_le h1 h2
          have hnne : g.neighborsOf v ≠ [] := by
            intro hnil
            rw [GraphMap.degree, hnil] at hdeg1
            cases hdeg1
          cases v with
          | Contract a =>
            obtain ⟨hc, hev⟩ := windowOfVertex_contract_shape g hbip a
            exact ⟨by rw [hc]; simp, hev hnne, Or.inl (by rw [hc]; rfl)⟩
          | Event s =>
            obtain ⟨hc, hev⟩ := windowOfVertex_event_shape g hbip s
            exact ⟨hev hnne, by rw [hc]; simp, Or.inr (by rw [hc]; rfl)⟩
        · exact ih (g.remove_node v) (WF_remove_node hwf) (Bipartite_remove_node hbip) w hw

theorem planLoopFuel_covers (fuel : Nat) :
    ∀ (g : GraphMap), g.WF → g.Bipartite → g.edge_count ≤ fuel →
    ∀ (a : Address) (s : EventSignature),
      ((LogFilterNode.Contract a, LogFilterNode.Event s) ∈ g.edges
        ∨ (LogFilterNode.Event s, LogFilterNode.Contract a) ∈ g.edges) →
      ∃ w ∈ planLoopFuel fuel g, a ∈ w.contracts ∧ s ∈ w.event_signatures := by
  induction fuel with
  | zero =>
    intro g _ _ hle a s hedge
    have hnil : g.edges = [] := List.length_eq_zero.mp (Nat.le_zero.mp hle)
    rcases hedge with h | h <;> (rw [hnil] at h; cases h)
  | succ fuel ih =>
    intro g hwf hbip hle a s hedge
    have hne : ¬ g.edge_count = 0 := by
      intro h0
      have hnil : g.edges = [] := List.length_eq_zero.mp h0
      rcases hedge with h | h <;> (rw [hnil] at h; cases h)
    simp only [planLoopFuel]
    rw [if_neg hne]
    have hmemCa : (LogFilterNode.Contract a) ∈ g.nodes := by
      rcases hedge with h | h
      · exact (hwf _ h).1
      · exact (hwf _ h).2
    have hmemEs : (LogFilterNode.Event s) ∈ g.neighborsOf (.Contract a) := by
      rcases hedge with h | h
      · exact mem_neighborsOf_left h
      · exact mem_neighborsOf_right h
    have hmemCa' : (LogFilterNode.Contract a) ∈ g.neighborsOf (.Event s) := by
      rcases hedge with h | h
      · exact mem_neighborsOf_right h
      · exact mem_neighborsOf_left h
    have hnodes : g.nodes ≠ [] := fun hnil => by rw [hnil] at hmemCa; cases hmemCa
    cases hmv : maxByKeyLast g.degree g.nodes with
    | none =>
      have hsome := @maxByKeyLast_isSome g.degree g.nodes hnodes
      rw [hmv] at hsome
      simp at hsome
    | some v =>
      by_cases hv : v = LogFilterNode.Contract a ∨ v = LogFilterNode.Event s
      · refine ⟨windowOfVertex g v, List.mem_cons_self _ _, ?_⟩
        rcases hv with rfl | rfl
        · exact ⟨windowOfVertex_base_contract g a,
            windowOfVertex_mem_event_neighbor hmemEs⟩
        · exact ⟨windowOfVertex_mem_contract_neighbor hmemCa',
            windowOfVertex_base_event g s⟩
      · push_neg at hv
        obtain ⟨hv1, hv2⟩ := hv
        have hsur : ((LogFilterNode.Contract a, LogFilterNode.Event s)
              ∈ (g.remove_node v).edges
            ∨ (LogFilterNode.Event s, LogFilterNode.Contract a)
              ∈ (g.remove_node v).edges) := by
          rcases hedge with h | h
          · exact Or.inl (mem_remove_node_edges h
              (fun hc => hv1 hc.symm) (fun hc => hv2 hc.symm))
          · exact Or.inr (mem_remove_node_edges h
              (fun hc => hv2 hc.symm) (fun hc => hv1 hc.symm))
        have hdeg : 0 < g.degree v := by
          have h1 : 0 < g.degree (.Contract a) :=
            List.length_pos.mpr (List.ne_nil_of_mem hmemEs)
          exact Nat.lt_of_lt_of_le h1 ((maxByKeyLast_spec hmv).2 _ hmemCa)
        have hinc : ∃ e ∈ g.edges, e.1 = v ∨ e.2 = v := by
          have hnne : g.neighborsOf v ≠ [] := by
            intro hnil
            rw [GraphMap.degree, hnil] at hdeg
            cases hdeg
          obtain ⟨n, hn⟩ := List.exists_mem_of_ne_nil _ hnne
          obtain ⟨e, he, hor⟩ := exists_edge_of_mem_neighborsOf hn
          rcases hor with ⟨h1, -⟩ | ⟨h1, -⟩
          · exact ⟨e, he, Or.inl h1⟩
          · exact ⟨e, he, Or.inr h1⟩
        have hdec : (g.remove_node v).edge_count ≤ fuel :=
          Nat.le_of_lt_succ (Nat.lt_of_lt_of_le (remove_node_edge_count_lt hinc) hle)
        obtain ⟨w, hw, hws⟩ := ih (g.remove_node v) (WF_remove_node hwf)
          (Bipartite_remove_node hbip) hdec a s hsur
        exact ⟨w, List.mem_cons_of_mem _ hw, hws⟩

theorem matchesL_elim {f : EthereumLogFilter} {L : Log}
    (hm : f.matchesL L = true) :
    ∃ s, L.topics.head? = some s ∧
      ((∃ e ∈ f.contracts_and_events_graph.edges,
          (e.1 = LogFilterNode.Contract L.address ∧ e.2 = LogFilterNode.Event s)
            ∨ (e.2 = LogFilterNode.Contract L.address ∧ e.1 = LogFilterNode.Event s))
        ∨ s ∈ f.wildcard_events) := by
  unfold EthereumLogFilter.matchesL at hm
  cases h : L.topics.head? with
  | none => rw [h] at hm; cases hm
  | some sig =>
    rw [h] at hm
    simp only [Bool.or_eq_true, List.any_eq_true, decide_eq_true_eq,
      List.contains, List.elem_eq_mem] at hm
    exact ⟨sig, rfl, hm⟩

/-- C4: the planner loses no matches — every log matched by a log filter whose
graph is well-formed and bipartite is matched by at least one window returned
by `eth_get_logs_filters`: the log's address is in the window's contract list
(or that list is empty, for a wildcard window) and the log's first topic is in
the window's event-signature list. -/
theorem log_filter_planner_no_false_negatives (f : EthereumLogFilter) (L : Log)
    (hwf : f.contracts_and_events_graph.WF)
    (hbip : f.contracts_and_events_graph.Bipartite)
    (hm : f.matchesL L = true) :
    ∃ w ∈ f.eth_get_logs_filters,
      (w.contracts = [] ∨ L.address ∈ w.contracts)
        ∧ ∃ s, L.topics.head? = some s ∧ s ∈ w.event_signatures := by
  obtain ⟨s, hs, hor⟩ := matchesL_elim hm
  unfold EthereumLogFilter.eth_get_logs_filters
  rcases hor with ⟨e, he, hsh⟩ | hwild
  · have hedge : ((LogFilterNode.Contract L.address, LogFilterNode.Event s)
          ∈ f.contracts_and_events_graph.edges
        ∨ (LogFilterNode.Event s, LogFilterNode.Contract L.address)
          ∈ f.contracts_and_events_graph.edges) := by
      obtain ⟨x, y⟩ := e
      rcases hsh with ⟨h1, h2⟩ | ⟨h1, h2⟩
      · simp only at h1 h2
        subst h1; subst h2
        exact Or.inl he
      · simp only at h1 h2
        subst h1; subst h2
        exact Or.inr he
    obtain ⟨w, hw, hws⟩ := planLoopFuel_covers f.contracts_and_events_graph.edge_count
      f.contracts_and_events_graph hwf hbip (Nat.le_refl _) L.address s hedge
    exact ⟨w, List.mem_append.mpr (Or.inr hw), Or.inr hws.1, s, hs, hws.2⟩
  · refine ⟨⟨[], [s]⟩, List.mem_append.mpr (Or.inl ?_), Or.inl rfl, s, hs, by simp⟩
    exact List.mem_map.mpr ⟨s, hwild, rfl⟩

theorem log_filter_planner_no_false_negatives_witness :
    logFilterE.contracts_and_events_graph.WF
    ∧ logFilterE.contracts_and_events_graph.Bipartite
    ∧ logFilterE.matchesL log5 = true
    ∧ ∃ w ∈ logFilterE.eth_get_logs_filters,
        (w.contracts = [] ∨ log5.address ∈ w.contracts)
          ∧ ∃ s, log5.topics.head? = some s ∧ s ∈ w.event_signatures :=
  ⟨by decide, by decide, by decide,
    log_filter_planner_no_false_negatives logFilterE log5
      (by decide) (by decide) (by decide)⟩

/-- C5: every window the planner emits for a log filter whose graph is
well-formed and bipartite is either a wildcard window (no contracts, exactly
one event signature) or has non-empty contracts and non-empty event signatures
with at least one side a singleton — so no window ever has both sides of size
at least 2, the two loop assertions hold of every loop window, and the
`unwrap` of the maximum-degree vertex succeeds on every well-formed graph with
an edge. -/
theorem log_filter_planner_window_shape (f : EthereumLogFilter)
    (hwf : f.contracts_and_events_graph.WF)
    (hbip : f.contracts_and_events_graph.Bipartite) :
    (∀ w ∈ planLoopFuel f.contracts_and_events_graph.edge_count
        f.contracts_and_events_graph,
      w.contracts ≠ [] ∧ w.event_signatures ≠ []
        ∧ (w.contracts.length = 1 ∨ w.event_signatures.length = 1))
    ∧ (∀ w ∈ f.eth_get_logs_filters,
        (w.contracts = [] ∧ w.event_signatures.length = 1)
          ∨ (w.contracts ≠ [] ∧ w.event_signatures ≠ []
              ∧ (w.contracts.length = 1 ∨ w.event_signatures.length = 1)))
    ∧ (∀ g : GraphMap, g.WF → 0 < g.edge_count →
        (maxByKeyLast g.degree g.nodes).isSome) := by
  refine ⟨fun w hw => planLoopFuel_windows _ _ hwf hbip w hw, fun w hw => ?_,
    fun g hgwf hpos => ?_⟩
  · unfold EthereumLogFilter.eth_get_logs_filters at hw
    rcases List.mem_append.mp hw with hw | hw
    · obtain ⟨s, -, rfl⟩ := List.mem_map.mp hw
      exact Or.inl ⟨rfl, rfl⟩
    · exact Or.inr (planLoopFuel_windows _ _ hwf hbip w hw)
  · obtain ⟨e, he⟩ := List.exists_mem_of_ne_nil g.edges
      (fun hnil => by rw [GraphMap.edge_count, hnil] at hpos; cases hpos)
    have hmem : e.1 ∈ g.nodes := (hgwf e he).1
    exact maxByKeyLast_isSome (fun hnil => by rw [hnil] at hmem; cases hmem)

theorem log_filter_planner_window_shape_witness :
    logFilterE.contracts_and_events_graph.WF
    ∧ logFilterE.contracts_and_events_graph.Bipartite
    ∧ ((∀ w ∈ planLoopFuel logFilterE.contracts_and_events_graph.edge_count
          logFilterE.contracts_and_events_graph,
        w.contracts ≠ [] ∧ w.event_signatures ≠ []
          ∧ (w.contracts.length = 1 ∨ w.event_signatures.length = 1))
      ∧ (∀ w ∈ logFilterE.eth_get_logs_filters,
          (w.contracts = [] ∧ w.event_signatures.length = 1)
            ∨ (w.contracts ≠ [] ∧ w.event_signatures ≠ []
                ∧ (w.contracts.length = 1 ∨ w.event_signatures.length = 1)))
      ∧ (∀ g : GraphMap, g.WF → 0 < g.edge_count →
          (maxByKeyLast g.degree g.nodes).isSome)) :=
  ⟨by decide, by decide,
    log_filter_planner_window_shape logFilterE (by decide) (by decide)⟩

theorem groupFold_spec (ts : List EthereumTrigger)
    (m : Nat → Option (List EthereumTrigger)) (n : Nat) :
    (ts.foldl (fun m t => mapUpd m t.block_number
        (some ((m t.block_number).getD [] ++ [t]))) m) n
      = if (ts.filter fun t => t.block_number = n) = [] then m n
        else some ((m n).getD [] ++ ts.filter fun t => t.block_number = n) := by
  induction ts generalizing m with
  | nil => simp
  | cons t rest ih =>
    rw [List.foldl_cons, ih]
    by_cases ht : t.block_number = n
    · have hf : ((t :: rest).filter fun t => t.block_number = n)
          = t :: (rest.filter fun t => t.block_number = n) := by
        simp [List.filter_cons, ht]
      have hm' : (mapUpd m t.block_number
          (some ((m t.block_number).getD [] ++ [t]))) n
          = some ((m n).getD [] ++ [t]) := by
        unfold mapUpd
        rw [if_pos ht.symm, ht]
      rw [hf, hm']
      by_cases hrest : (rest.filter fun t => t.block_number = n) = []
      · rw [if_pos hrest, if_neg (by simp), hrest]
      · rw [if_neg hrest, if_neg (by simp)]
        simp [List.append_assoc]
    · have hf : ((t :: rest).filter fun t => t.block_number = n)
          = rest.filter fun t => t.block_number = n := by
        simp [List.filter_cons, ht]
      have hm' : (mapUpd m t.block_number
          (some ((m t.block_number).getD [] ++ [t]))) n = m n := by
        unfold mapUpd
        rw [if_neg (fun h => ht h.symm)]
      rw [hf, hm']

theorem groupByBlock_eq_some {ts : List EthereumTrigger} {n : Nat}
    {l : List EthereumTrigger} (h : groupByBlock ts n = some l) :
    l = ts.filter fun t => t.block_number = n := by
  unfold groupByBlock at h
  rw [groupFold_spec] at h
  by_cases hf : (ts.filter fun t => t.block_number = n) = []
  · rw [if_pos hf] at h; cases h
  · rw [if_neg hf] at h
    injection h with h
    simp only [Option.getD_none, List.nil_append] at h
    exact h.symm

theorem groupByBlock_some_ne_nil {ts : List EthereumTrigger} {n : Nat}
    {l : List EthereumTrigger} (h : groupByBlock ts n = some l) : l ≠ [] := by
  unfold groupByBlock at h
  rw [groupFold_spec] at h
  by_cases hf : (ts.filter fun t => t.block_number = n) = []
  · rw [if_pos hf] at h; cases h
  · rw [if_neg hf] at h
    injection h with h
    intro hnil
    rw [hnil] at h
    simp only [Option.getD_none, List.nil_append] at h
    exact hf h

theorem consumeBlocks_entries {m : Nat → Option (List EthereumTrigger)}
    {bs : List LightEthereumBlock} {r : List EthereumBlockWithTriggers}
    (h : consumeBlocks m bs = some r) :
    ∀ x ∈ r, m x.ethereum_block.number = some x.triggers := by
  induction bs generalizing m r with
  | nil =>
    injection h with h
    subst h
    intro x hx
    cases hx
  | cons b bs ih =>
    unfold consumeBlocks at h
    cases hm : m b.number with
    | none => rw [hm] at h; cases h
    | some ts =>
      rw [hm] at h
      cases hr : consumeBlocks (mapUpd m b.number none) bs with
      | none => rw [hr] at h; cases h
      | some rest =>
        rw [hr] at h
        injection h with h
        subst h
        intro x hx
        rcases List.mem_cons.mp hx with rfl | hx
        · exact hm
        · have hx' := ih hr x hx
          unfold mapUpd at hx'
          by_cases hxn : x.ethereum_block.number = b.number
          · rw [if_pos hxn] at hx'; cases hx'
          · rw [if_neg hxn] at hx'; exact hx'

theorem consumeBlocks_nodup {m : Nat → Option (List EthereumTrigger)}
    {bs : List LightEthereumBlock} {r : List EthereumBlockWithTriggers}
    (h : consumeBlocks m bs = some r) :
    (r.map fun x => x.ethereum_block.number).Nodup := by
  induction bs generalizing m r with
  | nil =>
    injection h with h
    subst h
    simp
  | cons b bs ih =>
    unfold consumeBlocks at h
    cases hm : m b.number with
    | none => rw [hm] at h; cases h
    | some ts =>
      rw [hm] at h
      cases hr : consumeBlocks (mapUpd m b.number none) bs with
      | none => rw [hr] at h; cases h
      | some rest =>
        rw [hr] at h
        injection h with h
        subst h
        rw [List.map_cons, List.nodup_cons]
        refine ⟨fun hmem => ?_, ih hr⟩
        obtain ⟨x, hx, hnum⟩ := List.mem_map.mp hmem
        have hx' := consumeBlocks_entries hr x hx
        unfold mapUpd at hx'
        rw [if_pos hnum] at hx'
        cases hx'

theorem consumeBlocks_covers {m : Nat → Option (List EthereumTrigger)}
    {bs : List LightEthereumBlock} {r : List EthereumBlockWithTriggers}
    (h : consumeBlocks m bs = some r) :
    ∀ b ∈ bs, ∃ x ∈ r, x.ethereum_block = b := by
  induction bs generalizing m r with
  | nil => intro b hb; cases hb
  | cons b bs ih =>
    unfold consumeBlocks at h
    cases hm : m b.number with
    | none => rw [hm] at h; cases h
    | some ts =>
      rw [hm] at h
      cases hr : consumeBlocks (mapUpd m b.number none) bs with
      | none => rw [hr] at h; cases h
      | some rest =>
        rw [hr] at h
        injection h with h
        subst h
        intro b' hb'
        rcases List.mem_cons.mp hb' with rfl | hb'
        · exact ⟨⟨ts, b'⟩, List.mem_cons_self _ _, rfl⟩
        · obtain ⟨x, hx, hxb⟩ := ih hr b' hb'
          exact ⟨x, List.mem_cons_of_mem _ hx, hxb⟩

theorem insertByNumber_perm (x : EthereumBlockWithTriggers)
    (l : List EthereumBlockWithTriggers) :
    (insertByNumber x l).Perm (x :: l) := by
  induction l with
  | nil => exact List.Perm.refl _
  | cons y ys ih =>
    unfold insertByNumber
    by_cases h : x.ethereum_block.number ≤ y.ethereum_block.number
    · rw [if_pos h]
    · rw [if_neg h]
      exact (List.Perm.cons y ih).trans (List.Perm.swap x y ys)

theorem sortByNumber_perm (l : List EthereumBlockWithTriggers) :
    (sortByNumber l).Perm l := by
  induction l with
  | nil => exact List.Perm.refl _
  | cons x xs ih =>
    exact (insertByNumber_perm x (sortByNumber xs)).trans (List.Perm.cons x ih)

theorem insertByNumber_sorted {x : EthereumBlockWithTriggers}
    {l : List EthereumBlockWithTriggers}
    (h : l.Pairwise fun a b => a.ethereum_block.number ≤ b.ethereum_block.number) :
    (insertByNumber x l).Pairwise
      fun a b => a.ethereum_block.number ≤ b.ethereum_block.number := by
  induction l with
  | nil => simp [insertByNumber]
  | cons y ys ih =>
    obtain ⟨hy, hys⟩ := List.pairwise_cons.mp h
    unfold insertByNumber
    by_cases hc : x.ethereum_block.number ≤ y.ethereum_block.number
    · rw [if_pos hc]
      refine List.pairwise_cons.mpr ⟨fun z hz => ?_, h⟩
      rcases List.mem_cons.mp hz with rfl | hz
      · exact hc
      · exact Nat.le_trans hc (hy z hz)
    · rw [if_neg hc]
      refine List.pairwise_cons.mpr ⟨fun z hz => ?_, ih hys⟩
      have hz' := (insertByNumber_perm x ys).mem_iff.mp hz
      rcases List.mem_cons.mp hz' with rfl | hz'
      · exact Nat.le_of_lt (Nat.lt_of_not_le hc)
      · exact hy z hz'

theorem sortByNumber_sorted (l : List EthereumBlockWithTriggers) :
    (sortByNumber l).Pairwise
      fun a b => a.ethereum_block.number ≤ b.ethereum_block.number := by
  induction l with
  | nil => simp [sortByNumber]
  | cons x xs ih => exact insertByNumber_sorted ih

theorem tbbWithTerminal_entry {triggers : List EthereumTrigger} {to_blk n : Nat}
    {l : List EthereumTrigger} (h : tbbWithTerminal triggers to_blk n = some l) :
    (l ≠ [] ∧ l = triggers.filter fun t => t.block_number = n)
      ∨ (l = [] ∧ n = to_blk) := by
  unfold tbbWithTerminal at h
  by_cases hg : (groupByBlock triggers to_blk).isSome = true
  · rw [if_pos hg] at h
    exact Or.inl ⟨groupByBlock_some_ne_nil h, groupByBlock_eq_some h⟩
  · rw [if_neg hg] at h
    unfold mapUpd at h
    by_cases hn : n = to_blk
    · rw [if_pos hn] at h
      injection h with h
      exact Or.inr ⟨h.symm, hn⟩
    · rw [if_neg hn] at h
      exact Or.inl ⟨groupByBlock_some_ne_nil h, groupByBlock_eq_some h⟩

theorem collate_elim {to_blk : Nat} {triggers : List EthereumTrigger}
    {toh : H256} {blockOf : H256 → LightEthereumBlock}
    {res : List EthereumBlockWithTriggers}
    (h : collate to_blk triggers toh blockOf = some res) :
    ∃ r0, consumeBlocks (tbbWithTerminal triggers to_blk)
        ((insertNew (blockHashes triggers) toh).map blockOf) = some r0
      ∧ res = sortByNumber r0 := by
  unfold collate at h
  obtain ⟨r0, h1, h2⟩ := Option.map_eq_some'.mp h
  exact ⟨r0, h1, h2.symm⟩

theorem blocks_with_triggers_success_elim {frm to_blk : Nat}
    {logF : EthereumLogFilter} {callF : EthereumCallFilter}
    {blockF : EthereumBlockFilter} {o : ScanOracle} {order : List Nat}
    {res : List EthereumBlockWithTriggers}
    (hres : blocks_with_triggers frm to_blk logF callF blockF o order = some res) :
    ∃ toh, o.toHash = some toh
      ∧ collate to_blk (concatInOrder (triggerFuts logF callF blockF o) order)
          toh o.blockOf = some res := by
  unfold blocks_with_triggers at hres
  cases hth : o.toHash with
  | none => rw [hth] at hres; cases hres
  | some toh =>
    rw [hth] at hres
    exact ⟨toh, rfl, hres⟩

/-- C1: every successful result of `blocks_with_triggers` — for any range
`from ≤ to`, any filters, any sub-scan results and completion order, provided
the node resolves the terminal hash to a block numbered `to` — is sorted in
ascending block-number order, contains no two entries with the same block
number, and contains an entry for `to`; an entry with an empty trigger list can
only be that terminal entry. -/
theorem blocks_with_triggers_sorted_nodup_terminal
    (frm to_blk : Nat) (logF : EthereumLogFilter) (callF : EthereumCallFilter)
    (blockF : EthereumBlockFilter) (o : ScanOracle) (order : List Nat)
    (res : List EthereumBlockWithTriggers)
    (hrange : frm ≤ to_blk)
    (hcons : ∀ h, o.toHash = some h → (o.blockOf h).number = to_blk)
    (hres : blocks_with_triggers frm to_blk logF callF blockF o order = some res) :
    (res.Pairwise fun x y => x.ethereum_block.number ≤ y.ethereum_block.number)
    ∧ (res.map fun x => x.ethereum_block.number).Nodup
    ∧ (∃ x ∈ res, x.ethereum_block.number = to_blk)
    ∧ (∀ x ∈ res, x.triggers = [] → x.ethereum_block.number = to_blk) := by
  obtain ⟨toh, hth, hcol⟩ := blocks_with_triggers_success_elim hres
  obtain ⟨r0, hcb, hsort⟩ := collate_elim hcol
  subst hsort
  refine ⟨sortByNumber_sorted r0, ?_, ?_, ?_⟩
  · exact (((sortByNumber_perm r0).map fun x => x.ethereum_block.number).nodup_iff).mpr
      (consumeBlocks_nodup hcb)
  · have hmem : o.blockOf toh
        ∈ (insertNew (blockHashes (concatInOrder (triggerFuts logF callF blockF o)
            order)) toh).map o.blockOf :=
      List.mem_map.mpr ⟨toh, mem_insertNew.mpr (Or.inr rfl), rfl⟩
    obtain ⟨x, hx, hxb⟩ := consumeBlocks_covers hcb _ hmem
    refine ⟨x, ((sortByNumber_perm r0).mem_iff).mpr hx, ?_⟩
    rw [hxb]
    exact hcons toh hth
  · intro x hx hempty
    have hx0 : x ∈ r0 := (sortByNumber_perm r0).mem_iff.mp hx
    have hentry := consumeBlocks_entries hcb x hx0
    rcases tbbWithTerminal_entry hentry with ⟨hne, -⟩ | ⟨-, hn⟩
    · exact absurd hempty hne
    · exact hn

theorem blocks_with_triggers_sorted_nodup_terminal_witness :
    ((0 : Nat) ≤ 0)
    ∧ (∀ h, oracle0.toHash = some h → (oracle0.blockOf h).number = 0)
    ∧ blocks_with_triggers 0 0 logFilter0 callFilter0 blockFilter0 oracle0 []
        = some [⟨[], ⟨0, 7⟩⟩]
    ∧ (([(⟨[], ⟨0, 7⟩⟩ : EthereumBlockWithTriggers)].Pairwise
          fun x y => x.ethereum_block.number ≤ y.ethereum_block.number)
        ∧ ([(⟨[], ⟨0, 7⟩⟩ : EthereumBlockWithTriggers)].map
            fun x => x.ethereum_block.number).Nodup
        ∧ (∃ x ∈ [(⟨[], ⟨0, 7⟩⟩ : EthereumBlockWithTriggers)],
            x.ethereum_block.number = 0)
        ∧ (∀ x ∈ [(⟨[], ⟨0, 7⟩⟩ : EthereumBlockWithTriggers)],
            x.triggers = [] → x.ethereum_block.number = 0)) :=
  ⟨Nat.le_refl 0, fun h hh => by injection hh with hh; subst hh; rfl, rfl,
    blocks_with_triggers_sorted_nodup_terminal 0 0 logFilter0 callFilter0
      blockFilter0 oracle0 [] [⟨[], ⟨0, 7⟩⟩] (Nat.le_refl 0)
      (fun h hh => by injection hh with hh; subst hh; rfl) rfl⟩

/-- C7 counterexample: with `from = 1 > to = 0`, empty filters and a node that
resolves the terminal hash, `blocks_with_triggers` succeeds, returning the
terminal block — it does not fail, and `EthereumAdapterError` has no
`InvalidRange` variant the claimed error could be. -/
theorem blocks_with_triggers_inverted_range_succeeds :
    (1 : Nat) > 0
    ∧ blocks_with_triggers 1 0 logFilter0 callFilter0 blockFilter0 oracle0 []
        = some [⟨[], ⟨0, 7⟩⟩] :=
  ⟨Nat.one_pos, rfl⟩

theorem concatInOrder_nil (order : List Nat) : concatInOrder [] order = [] := by
  unfold concatInOrder
  induction order with
  | nil => rfl
  | cons i is ih => simp [ih]

/-- C7 (amended): `blocks_with_triggers` performs no validation of the range:
for every `from > to` it proceeds normally, and with all three filters empty
and a terminal hash resolving to a block numbered `to` it succeeds, returning
exactly the terminal block with an empty trigger list. -/
theorem blocks_with_triggers_no_range_check
    (frm to_blk : Nat) (o : ScanOracle) (order : List Nat) (th : H256)
    (hgt : frm > to_blk) (hth : o.toHash = some th)
    (hnum : (o.blockOf th).number = to_blk) :
    blocks_with_triggers frm to_blk logFilter0 callFilter0 blockFilter0 o order
      = some [⟨[], o.blockOf th⟩] := by
  unfold blocks_with_triggers
  rw [hth]
  have htr : concatInOrder (triggerFuts logFilter0 callFilter0 blockFilter0 o)
      order = [] := concatInOrder_nil order
  show collate to_blk (concatInOrder (triggerFuts logFilter0 callFilter0
      blockFilter0 o) order) th o.blockOf = some [⟨[], o.blockOf th⟩]
  rw [htr]
  have h2 : tbbWithTerminal [] to_blk (o.blockOf th).number = some [] := by
    show mapUpd (groupByBlock []) to_blk (some []) (o.blockOf th).number = some []
    unfold mapUpd
    rw [if_pos hnum]
  show (consumeBlocks (tbbWithTerminal [] to_blk) [o.blockOf th]).map
      sortByNumber = some [⟨[], o.blockOf th⟩]
  unfold consumeBlocks
  rw [h2]
  rfl

theorem blocks_with_triggers_no_range_check_witness :
    (1 : Nat) > 0
    ∧ oracle0.toHash = some 7
    ∧ (oracle0.blockOf 7).number = 0
    ∧ blocks_with_triggers 1 0 logFilter0 callFilter0 blockFilter0 oracle0 [0]
        = some [⟨[], oracle0.blockOf 7⟩] :=
  ⟨Nat.one_pos, rfl, rfl,
    blocks_with_triggers_no_range_check 1 0 oracle0 [0] 7 Nat.one_pos rfl rfl⟩

/-- C9 counterexample: with completion order `[1, 0]` — the call sub-scan
finishing before the log sub-scan — the single result block's trigger list has
its `Call` trigger before its `Log` trigger, so the claimed
logs-before-calls-before-blocks order does not hold regardless of completion
order. -/
theorem trigger_order_depends_on_completion :
    blocks_with_triggers 5 5 logFilterW callFilterA blockFilter0 oracle5 [1, 0]
      = some [⟨[.Call call5, .Log log5], ⟨5, 50⟩⟩]
    ∧ ¬ claimOrdered [.Call call5, .Log log5] :=
  ⟨by decide, by decide⟩

theorem map_getD_range (l : List (List EthereumTrigger)) :
    (List.range l.length).map (fun i => l.getD i []) = l := by
  induction l with
  | nil => rfl
  | cons x xs ih =>
    rw [List.length_cons, List.range_succ_eq_map, List.map_cons, List.map_map]
    have hc : ((fun i => (x :: xs).getD i []) ∘ Nat.succ)
        = fun i => xs.getD i [] := by
      funext i
      rfl
    rw [hc, ih]
    rfl

theorem concatInOrder_range (futs : List (List EthereumTrigger)) :
    concatInOrder futs (List.range futs.length) = futs.flatten := by
  unfold concatInOrder
  rw [map_getD_range]

theorem isLogT_false_of_isCallT {t : EthereumTrigger} (h : isCallT t = true) :
    isLogT t = false := by
  cases t <;> simp_all [isLogT, isCallT]

theorem isLogT_false_of_isBlockT {t : EthereumTrigger} (h : isBlockT t = true) :
    isLogT t = false := by
  cases t <;> simp_all [isLogT, isBlockT]

theorem isCallT_false_of_isLogT {t : EthereumTrigger} (h : isLogT t = true) :
    isCallT t = false := by
  cases t <;> simp_all [isLogT, isCallT]

theorem isCallT_false_of_isBlockT {t : EthereumTrigger} (h : isBlockT t = true) :
    isCallT t = false := by
  cases t <;> simp_all [isCallT, isBlockT]

theorem isBlockT_false_of_isLogT {t : EthereumTrigger} (h : isLogT t = true) :
    isBlockT t = false := by
  cases t <;> simp_all [isLogT, isBlockT]

theorem isBlockT_false_of_isCallT {t : EthereumTrigger} (h : isCallT t = true) :
    isBlockT t = false := by
  cases t <;> simp_all [isCallT, isBlockT]

theorem claimOrdered_decomp {ls cs bs : List EthereumTrigger}
    (hl : ∀ t ∈ ls, isLogT t = true) (hc : ∀ t ∈ cs, isCallT t = true)
    (hb : ∀ t ∈ bs, isBlockT t = true) :
    claimOrdered (ls ++ (cs ++ bs)) := by
  unfold claimOrdered
  have f1 : (ls ++ (cs ++ bs)).filter isLogT = ls := by
    rw [List.filter_append, List.filter_append,
      List.filter_eq_self.mpr hl,
      List.filter_eq_nil_iff.mpr
        (fun t ht => by simp [isLogT_false_of_isCallT (hc t ht)]),
      List.filter_eq_nil_iff.mpr
        (fun t ht => by simp [isLogT_false_of_isBlockT (hb t ht)])]
    simp
  have f2 : (ls ++ (cs ++ bs)).filter isCallT = cs := by
    rw [List.filter_append, List.filter_append,
      List.filter_eq_self.mpr hc,
      List.filter_eq_nil_iff.mpr
        (fun t ht => by simp [isCallT_false_of_isLogT (hl t ht)]),
      List.filter_eq_nil_iff.mpr
        (fun t ht => by simp [isCallT_false_of_isBlockT (hb t ht)])]
    simp
  have f3 : (ls ++ (cs ++ bs)).filter isBlockT = bs := by
    rw [List.filter_append, List.filter_append,
      List.filter_eq_self.mpr hb,
      List.filter_eq_nil_iff.mpr
        (fun t ht => by simp [isBlockT_false_of_isLogT (hl t ht)]),
      List.filter_eq_nil_iff.mpr
        (fun t ht => by simp [isBlockT_false_of_isCallT (hc t ht)])]
    simp
  rw [f1, f2, f3, List.append_assoc]

theorem triggerFuts_homog (logF : EthereumLogFilter) (callF : EthereumCallFilter)
    (blockF : EthereumBlockFilter) (o : ScanOracle) :
    ∃ ls cs bs : List EthereumTrigger,
      (triggerFuts logF callF blockF o).flatten = ls ++ (cs ++ bs)
        ∧ (∀ t ∈ ls, isLogT t = true) ∧ (∀ t ∈ cs, isCallT t = true)
        ∧ (∀ t ∈ bs, isBlockT t = true) := by
  refine ⟨(if logF.is_empty then [] else [o.logs.map EthereumTrigger.Log]).flatten,
    (if callF.is_empty then [] else [o.calls.map EthereumTrigger.Call]).flatten,
    (if blockF.trigger_every_block then
        [o.ptrs.map fun p => EthereumTrigger.Block p EthereumBlockTriggerType.Every]
      else if blockF.contract_addresses.isEmpty then []
      else
        [o.blockCalls.map fun c =>
          EthereumTrigger.Block (EthereumBlockPointer.fromCall c)
            (EthereumBlockTriggerType.WithCallTo c.to_addr)]).flatten,
    ?_, ?_, ?_, ?_⟩
  · unfold triggerFuts
    rw [List.flatten_append, List.flatten_append, List.append_assoc]
  · intro t ht
    obtain ⟨l, hlmem, htl⟩ := List.mem_flatten.mp ht
    by_cases he : logF.is_empty = true
    · rw [if_pos he] at hlmem; cases hlmem
    · rw [if_neg he] at hlmem
      rcases List.mem_singleton.mp hlmem with rfl
      obtain ⟨lg, -, rfl⟩ := List.mem_map.mp htl
      rfl
  · intro t ht
    obtain ⟨l, hlmem, htl⟩ := List.mem_flatten.mp ht
    by_cases he : callF.is_empty = true
    · rw [if_pos he] at hlmem; cases hlmem
    · rw [if_neg he] at hlmem
      rcases List.mem_singleton.mp hlmem with rfl
      obtain ⟨c, -, rfl⟩ := List.mem_map.mp htl
      rfl
  · intro t ht
    obtain ⟨l, hlmem, htl⟩ := List.mem_flatten.mp ht
    by_cases h1 : blockF.trigger_every_block = true
    · rw [if_pos h1] at hlmem
      rcases List.mem_singleton.mp hlmem with rfl
      obtain ⟨p, -, rfl⟩ := List.mem_map.mp htl
      rfl
    · rw [if_neg h1] at hlmem
      by_cases h2 : blockF.contract_addresses.isEmpty = true
      · rw [if_pos h2] at hlmem; cases hlmem
      · rw [if_neg h2] at hlmem
        rcases List.mem_singleton.mp hlmem with rfl
        obtain ⟨c, -, rfl⟩ := List.mem_map.mp htl
        rfl

/-- C9 (amended): within a block, triggers are grouped by sub-scan and appear
in sub-scan completion order, each sub-scan's internal order preserved; when
the sub-scans complete in the order they were launched (logs, then calls, then
block triggers — the identity completion order), every block's trigger list
has all log triggers first, then all call triggers, then all block-level
triggers.  For other completion orders the claimed order can fail (see the
counterexample). -/
theorem trigger_order_in_launch_order
    (frm to_blk : Nat) (logF : EthereumLogFilter) (callF : EthereumCallFilter)
    (blockF : EthereumBlockFilter) (o : ScanOracle)
    (res : List EthereumBlockWithTriggers)
    (hres : blocks_with_triggers frm to_blk logF callF blockF o
        (List.range (triggerFuts logF callF blockF o).length) = some res) :
    ∀ x ∈ res, claimOrdered x.triggers := by
  obtain ⟨toh, hth, hcol⟩ := blocks_with_triggers_success_elim hres
  obtain ⟨r0, hcb, hsort⟩ := collate_elim hcol
  subst hsort
  intro x hx
  have hx0 : x ∈ r0 := (sortByNumber_perm r0).mem_iff.mp hx
  have hentry := consumeBlocks_entries hcb x hx0
  rw [concatInOrder_range] at hentry
  obtain ⟨ls, cs, bs, hflat, hl, hc, hb⟩ := triggerFuts_homog logF callF blockF o
  rw [hflat] at hentry
  rcases tbbWithTerminal_entry hentry with ⟨-, heq⟩ | ⟨heq, -⟩
  · rw [heq, List.filter_append, List.filter_append]
    exact claimOrdered_decomp
      (fun t ht => hl t (List.mem_of_mem_filter ht))
      (fun t ht => hc t (List.mem_of_mem_filter ht))
      (fun t ht => hb t (List.mem_of_mem_filter ht))
  · rw [heq]
    exact rfl

theorem trigger_order_in_launch_order_witness :
    blocks_with_triggers 5 5 logFilterW callFilterA blockFilter0 oracle5
        (List.range (triggerFuts logFilterW callFilterA blockFilter0 oracle5).length)
      = some [⟨[.Log log5, .Call call5], ⟨5, 50⟩⟩]
    ∧ ∀ x ∈ [(⟨[.Log log5, .Call call5], ⟨5, 50⟩⟩ : EthereumBlockWithTriggers)],
        claimOrdered x.triggers :=
  ⟨by decide,
    trigger_order_in_launch_order 5 5 logFilterW callFilterA blockFilter0
      oracle5 [⟨[.Log log5, .Call call5], ⟨5, 50⟩⟩] (by decide)⟩

theorem add_edge_WF {g : GraphMap} {a b : LogFilterNode} (h : g.WF) :
    (g.add_edge a b).WF := by
  intro e he
  simp only [GraphMap.add_edge] at he ⊢
  have hold : ∀ n : LogFilterNode, n ∈ g.nodes →
      n ∈ insertNew (insertNew g.nodes a) b :=
    fun n hn => mem_insertNew.mpr (Or.inl (mem_insertNew.mpr (Or.inl hn)))
  by_cases hc : g.hasEdge a b = true
  · rw [if_pos hc] at he
    obtain ⟨h1, h2⟩ := h e he
    exact ⟨hold _ h1, hold _ h2⟩
  · rw [if_neg hc] at he
    rcases List.mem_append.mp he with he | he
    · obtain ⟨h1, h2⟩ := h e he
      exact ⟨hold _ h1, hold _ h2⟩
    · rcases List.mem_singleton.mp he with rfl
      exact ⟨mem_insertNew.mpr (Or.inl (mem_insertNew.mpr (Or.inr rfl))),
        mem_insertNew.mpr (Or.inr rfl)⟩

theorem add_edge_Bip {g : GraphMap} {a b : LogFilterNode}
    (hab : edgeBipartite (a, b) = true) (h : g.Bipartite) :
    (g.add_edge a b).Bipartite := by
  intro e he
  simp only [GraphMap.add_edge] at he
  by_cases hc : g.hasEdge a b = true
  · rw [if_pos hc] at he
    exact h e he
  · rw [if_neg hc] at he
    rcases List.mem_append.mp he with he | he
    · exact h e he
    · rcases List.mem_singleton.mp he with rfl
      exact hab

theorem logFilter_sig_fold_WF_Bip (addr : Option Address)
    (sigs : List EventSignature) :
    ∀ acc : EthereumLogFilter, acc.contracts_and_events_graph.WF →
    acc.contracts_and_events_graph.Bipartite →
    ((sigs.foldl
        (fun this event_sig =>
          match addr with
          | some contract =>
            { this with
              contracts_and_events_graph :=
                this.contracts_and_events_graph.add_edge
                  (LogFilterNode.Contract contract) (LogFilterNode.Event event_sig) }
          | none =>
            { this with
              wildcard_events := insertNew this.wildcard_events event_sig })
        acc).contracts_and_events_graph.WF
      ∧ (sigs.foldl
        (fun this event_sig =>
          match addr with
          | some contract =>
            { this with
              contracts_and_events_graph :=
                this.contracts_and_events_graph.add_edge
                  (LogFilterNode.Contract contract) (LogFilterNode.Event event_sig) }
          | none =>
            { this with
              wildcard_events := insertNew this.wildcard_events event_sig })
        acc).contracts_and_events_graph.Bipartite) := by
  induction sigs with
  | nil => exact fun acc hw hb => ⟨hw, hb⟩
  | cons s ss ih =>
    intro acc hw hb
    rw [List.foldl_cons]
    cases addr with
    | some c => exact ih _ (add_edge_WF hw) (add_edge_Bip rfl hb)
    | none => exact ih _ hw hb

/-- The log filter built from any list of data sources satisfies the
well-formedness and bipartiteness invariants assumed by the planner theorems. -/
theorem log_filter_from_data_sources_WF_Bip (dss : List DataSource) :
    (EthereumLogFilter.from_data_sources dss).contracts_and_events_graph.WF
    ∧ (EthereumLogFilter.from_data_sources dss).contracts_and_events_graph.Bipartite := by
  unfold EthereumLogFilter.from_data_sources
  have hstep : ∀ (l : List DataSource) (acc : EthereumLogFilter),
      acc.contracts_and_events_graph.WF →
      acc.contracts_and_events_graph.Bipartite →
      ((l.foldl
          (fun this ds =>
            ds.mapping.event_handlers.foldl
              (fun this event_sig =>
                match ds.source.address with
                | some contract =>
                  { this with
                    contracts_and_events_graph :=
                      this.contracts_and_events_graph.add_edge
                        (LogFilterNode.Contract contract)
                        (LogFilterNode.Event event_sig) }
                | none =>
                  { this with
                    wildcard_events := insertNew this.wildcard_events event_sig })
              this)
          acc).contracts_and_events_graph.WF
        ∧ (l.foldl
          (fun this ds =>
            ds.mapping.event_handlers.foldl
              (fun this event_sig =>
                match ds.source.address with
                | some contract =>
                  { this with
                    contracts_and_events_graph :=
                      this.contracts_and_events_graph.add_edge
                        (LogFilterNode.Contract contract)
                        (LogFilterNode.Event event_sig) }
                | none =>
                  { this with
                    wildcard_events := insertNew this.wildcard_events event_sig })
              this)
          acc).contracts_and_events_graph.Bipartite) := by
    intro l
    induction l with
    | nil => exact fun acc hw hb => ⟨hw, hb⟩
    | cons d ds ih =>
      intro acc hw hb
      rw [List.foldl_cons]
      obtain ⟨hw', hb'⟩ :=
        logFilter_sig_fold_WF_Bip d.source.address d.mapping.event_handlers acc hw hb
      exact ih _ hw' hb'
  exact hstep dss ⟨⟨[], []⟩, []⟩ (fun e he => absurd he (List.not_mem_nil e))
    (fun e he => absurd he (List.not_mem_nil e))

/-- Merging log filters preserves the invariants assumed by the planner
theorems, provided the merged-in filter's graph is itself bipartite. -/
theorem log_filter_extend_WF_Bip (f other : EthereumLogFilter)
    (h1 : f.contracts_and_events_graph.WF)
    (h2 : f.contracts_and_events_graph.Bipartite)
    (h3 : other.contracts_and_events_graph.Bipartite) :
    (f.extend other).contracts_and_events_graph.WF
    ∧ (f.extend other).contracts_and_events_graph.Bipartite := by
  unfold EthereumLogFilter.extend
  have hstep : ∀ (es : List (LogFilterNode × LogFilterNode)) (g : GraphMap),
      g.WF → g.Bipartite → (∀ e ∈ es, edgeBipartite e = true) →
      ((es.foldl (fun g e => g.add_edge e.1 e.2) g).WF
        ∧ (es.foldl (fun g e => g.add_edge e.1 e.2) g).Bipartite) := by
    intro es
    induction es with
    | nil => exact fun g hw hb _ => ⟨hw, hb⟩
    | cons e es ih =>
      intro g hw hb hes
      rw [List.foldl_cons]
      exact ih _ (add_edge_WF hw)
        (add_edge_Bip (hes e (List.mem_cons_self _ _)) hb)
        (fun e' he' => hes e' (List.mem_cons_of_mem _ he'))
  exact hstep other.contracts_and_events_graph.edges f.contracts_and_events_graph
    h1 h2 h3
